import Mathlib

/-!
Verification of the `codex` synthetic-word generator.

The Go package under verification derives a `Traits` envelope from a sample of
words (tokenizer `getSounds`, per-word examination `Traits.examineWord`,
aggregation `Traits.Examine`), and then enumerates the set of synthetic words
permitted by the envelope, either with the pure exhaustive walker
(`Traits.walk` / `Traits.Words`) or with the stateful randomized enumerator
(`state.walk` / `state.walkRandom` / `state.trip`, exposed through
`Traits.Generator`).

Modelling conventions used throughout this file:
* Go strings are modelled as `List Char`; a sound glyph is a `List Char`.
* Go's `Set` (a `map[string]struct{}`) and `PairSet` are modelled as lists
  used only through membership; insertion is add-if-absent, which matches
  map-key semantics up to the (irrelevant, randomized away) iteration order.
* Go `int` counters are `Nat`: every value stored in a `Traits` is a count
  derived from lengths, so it is non-negative in all reachable states.
* The process-wide PRNG is modelled by oracle functions supplied as
  parameters; theorems quantify over every oracle that returns permutations,
  which covers every sequence of shuffles the Go PRNG can produce.
-/

namespace Codex

/-- A sound glyph. Go represents glyphs as `string`; we use `List Char`. -/
abbrev Sound := List Char

/-- A path in the (virtual or sidecar) tree: a sequence of sound glyphs. -/
abbrev Path := List Sound

/-- Tokenizer, from `getSounds(word string, known Set)`: scan left to right;
prefer the known 2-character digraph, else the known 1-character monograph,
else fail with the unknown-symbol error. -/
def getSounds (known : List Sound) : List Char → Except String (List Sound)
  | [] => .ok []
  | [c1] =>
    if [c1] ∈ known then .ok [[c1]] else .error "encountered unknown symbol"
  | c1 :: c2 :: rest =>
    if [c1, c2] ∈ known then
      match getSounds known rest with
      | .ok sounds => .ok ([c1, c2] :: sounds)
      | .error e => .error e
    else if [c1] ∈ known then
      match getSounds known (c2 :: rest) with
      | .ok sounds => .ok ([c1] :: sounds)
      | .error e => .error e
    else .error "encountered unknown symbol"

/-- From `getPairs(sounds []string)`: the consecutive pairs occurring in a
sound sequence.  Go collects them into a set; we keep the list of occurrences
and only ever use membership. -/
def getPairs : List Sound → List (Sound × Sound)
  | a :: b :: rest => (a, b) :: getPairs (b :: rest)
  | _ => []

/-- From `countIntersections(strings []string, set Set)`: how many entries of
the list are members of the set. -/
def countIntersections (strings : List Sound) (set : List Sound) : Nat :=
  match strings with
  | [] => 0
  | v :: rest => (if v ∈ set then 1 else 0) + countIntersections rest set

/-- Shared loop of `maxConsequtiveVowels` / `maxConsequtiveConsonants`:
left-to-right scan carrying the current run length and the maximum run seen. -/
def maxConseqAux (p : Sound → Bool) : List Sound → Nat → Nat → Nat
  | [], _, maxv => maxv
  | s :: rest, count, maxv =>
    if p s then maxConseqAux p rest (count + 1) (max maxv (count + 1))
    else maxConseqAux p rest 0 maxv

/-- From `maxConsequtiveVowels(sounds []string, vowels Set)`. -/
def maxConsequtiveVowels (vowels : List Sound) (sounds : List Sound) : Nat :=
  maxConseqAux (fun s => decide (s ∈ vowels)) sounds 0 0

/-- From `maxConsequtiveConsonants(sounds []string, vowels Set)`. -/
def maxConsequtiveConsonants (vowels : List Sound) (sounds : List Sound) : Nat :=
  maxConseqAux (fun s => !decide (s ∈ vowels)) sounds 0 0

/-- Inner loop of `countPair`, carrying `ownPrev` from the previous element. -/
def countPairAux (prev current : Sound) : Sound → List Sound → Nat
  | _, [] => 0
  | ownPrev, ownCurrent :: rest =>
    (if ownPrev = prev ∧ ownCurrent = current then 1 else 0) +
      countPairAux prev current ownCurrent rest

/-- From `countPair(strings []string, prev, current string)`: occurrences of
the adjacent pair `(prev, current)` in the list. -/
def countPair (strings : List Sound) (prev current : Sound) : Nat :=
  match strings with
  | [] => 0
  | first :: rest => countPairAux prev current first rest

/-- The `Traits` envelope.  The Go struct carries optional `KnownSounds` /
`KnownVowels` overrides which the methods resolve through `knownSounds()` /
`knownVowels()`; the `vowels` field below is the resolved vowel set (it is
never mutated by any modelled operation), and the resolved sound set is passed
to the extraction functions as a parameter. -/
structure Traits where
  minNSounds : Nat := 0
  maxNSounds : Nat := 0
  minNVowels : Nat := 0
  maxNVowels : Nat := 0
  maxConseqVow : Nat := 0
  maxConseqCons : Nat := 0
  soundSet : List Sound := []
  pairSet : List (Sound × Sound) := []
  vowels : List Sound := []
deriving Repr, DecidableEq

/-- `Traits.countVowels`. -/
def Traits.countVowels (t : Traits) (sounds : List Sound) : Nat :=
  countIntersections sounds t.vowels

/-- Loop of `Traits.validPairs` (the `part_004` version, which skips the
pair-membership check).  Arguments mirror the Go loop state: the element list
still to visit, the running index, `prev`, and the last two shift-register
pairs (`lastPair`, `pair`), with Go's `secondLastPair, lastPair, pair =
lastPair, pair, \x7bprev, current\x7d` shift inlined into the comparison and
the recursive call; the zero value of Go's `[2]string` is `([], [])`. -/
def validPairsAux (sounds : List Sound) :
    List Sound → Nat → Sound → Sound × Sound → Sound × Sound → Bool
  | [], _, _, _, _ => true
  | current :: rest, index, prev, lastPair, pair =>
    if 3 ≤ index ∧ lastPair = (prev, current) then false
    else if 2 < countPair (sounds.take index) prev current then false
    else validPairsAux sounds rest (index + 1) current pair (prev, current)

/-- From `Traits.validPairs` in `part_004`: no pair immediately recurs with one
pair in between, and the `countPair` scan over the strict prefix stays at most
two.  Membership of each pair in the trait's pair set is not checked here (the
comment in the source defers it to the traversal). -/
def validPairs (sounds : List Sound) : Bool :=
  match sounds with
  | [] => true
  | [_] => true
  | first :: rest => validPairsAux sounds rest 1 first ([], []) ([], [])

/-- Loop of the `perf.go` version of `Traits.validPairs`, which additionally
checks that every pair belongs to the trait's pair set. -/
def validPairsHasAux (t : Traits) (sounds : List Sound) :
    List Sound → Nat → Sound → Sound × Sound → Sound × Sound → Bool
  | [], _, _, _, _ => true
  | current :: rest, index, prev, lastPair, pair =>
    if (prev, current) ∉ t.pairSet then false
    else if 3 ≤ index ∧ lastPair = (prev, current) then false
    else if 2 < countPair (sounds.take index) prev current then false
    else validPairsHasAux t sounds rest (index + 1) current pair (prev, current)

/-- From `Traits.validPairs` in `perf.go` (with the pair-membership check). -/
def validPairsHas (t : Traits) (sounds : List Sound) : Bool :=
  match sounds with
  | [] => true
  | [_] => true
  | first :: rest => validPairsHasAux t sounds rest 1 first ([], []) ([], [])

/-- The numeric gate shared by both versions of `Traits.validPart`. -/
def numericOK (t : Traits) (sounds : List Sound) : Bool :=
  !(t.maxNVowels < t.countVowels sounds ∨
    t.maxConseqVow < maxConsequtiveVowels t.vowels sounds ∨
    t.maxConseqCons < maxConsequtiveConsonants t.vowels sounds)

/-- From `Traits.validPart` in `part_004`: numeric caps, then the single-sound
early `return true` when the sound starts some pair, then `validPairs` for
longer sequences; the final fall-through returns `true`. -/
def Traits.validPart (t : Traits) (sounds : List Sound) : Bool :=
  if !numericOK t sounds then false
  else if sounds.length = 1 ∧ t.pairSet.any (fun pr => pr.1 = sounds.headD []) then true
  else if 1 < sounds.length ∧ !validPairs sounds then false
  else true

/-- From `Traits.validPart` in `perf.go` (identical shape, but delegating to
the `validPairs` variant that checks pair membership). -/
def Traits.validPartHas (t : Traits) (sounds : List Sound) : Bool :=
  if !numericOK t sounds then false
  else if sounds.length = 1 ∧ t.pairSet.any (fun pr => pr.1 = sounds.headD []) then true
  else if 1 < sounds.length ∧ !validPairsHas t sounds then false
  else true

/-- From `Traits.checkPart`: the vowel count and the sound count must fit the
lower and upper bounds. -/
def Traits.checkPart (t : Traits) (sounds : List Sound) : Bool :=
  if t.countVowels sounds < t.minNVowels ∨ t.maxNVowels < t.countVowels sounds then false
  else if sounds.length < t.minNSounds ∨ t.maxNSounds < sounds.length then false
  else true

/-- From `Traits.validComplete`. -/
def Traits.validComplete (t : Traits) (sounds : List Sound) : Bool :=
  t.validPart sounds && t.checkPart sounds

/-- From `validLength(word string)` in the utility file: more than 1 and fewer
than 33 characters. -/
def validLength (word : List Char) : Bool :=
  decide (1 < word.length) && decide (word.length < 33)

/-- Map-style insertion into a modelled string set. -/
def addSound (set : List Sound) (s : Sound) : List Sound :=
  if s ∈ set then set else set ++ [s]

/-- Merge a list of glyphs into a modelled string set. -/
def addSounds (set : List Sound) (xs : List Sound) : List Sound :=
  xs.foldl addSound set

/-- Map-style insertion into a modelled pair set. -/
def addPair (set : List (Sound × Sound)) (pr : Sound × Sound) : List (Sound × Sound) :=
  if pr ∈ set then set else set ++ [pr]

/-- Merge a list of pairs into a modelled pair set. -/
def addPairs (set : List (Sound × Sound)) (xs : List (Sound × Sound)) : List (Sound × Sound) :=
  xs.foldl addPair set

/-- The Go merge for `MinNSounds` / `MinNVowels`:
`if this.Min == 0 || n < this.Min { this.Min = n }`. -/
def mergeMin (m n : Nat) : Nat :=
  if m = 0 ∨ n < m then n else m

/-- The Go merge for the max-valued fields: `if n > max { max = n }`. -/
def mergeMax (m n : Nat) : Nat :=
  if m < n then n else m

/-- From `Traits.examineWord` in `part_004`: validate the length, tokenize,
require at least two sounds, then merge every statistic into the accumulator. -/
def examineWord (known : List Sound) (t : Traits) (word : List Char) :
    Except String Traits :=
  if !validLength word then .error "the word is too short or too long"
  else
    match getSounds known word with
    | .error e => .error e
    | .ok sounds =>
      if sounds.length < 2 then .error "less than two sounds found"
      else .ok { t with
        minNSounds := mergeMin t.minNSounds sounds.length
        maxNSounds := mergeMax t.maxNSounds sounds.length
        minNVowels := mergeMin t.minNVowels (t.countVowels sounds)
        maxNVowels := mergeMax t.maxNVowels (t.countVowels sounds)
        maxConseqVow := mergeMax t.maxConseqVow (maxConsequtiveVowels t.vowels sounds)
        maxConseqCons := mergeMax t.maxConseqCons (maxConsequtiveConsonants t.vowels sounds)
        soundSet := addSounds t.soundSet sounds
        pairSet := addPairs t.pairSet (getPairs sounds) }

/-- From `Traits.Examine`: examine each word in order, stopping at the first
error.  (`NewTraits` is `new(Traits)` followed by `Examine`.) -/
def Examine (known : List Sound) (t : Traits) : List (List Char) → Except String Traits
  | [] => .ok t
  | w :: ws =>
    match examineWord known t w with
    | .error e => .error e
    | .ok t' => Examine known t' ws


/-- Round-trip property of the tokenizer: the glyphs concatenate back to the
word that was tokenized. -/
theorem getSounds_flatten (known : List Sound) (w : List Char) :
    ∀ s, getSounds known w = .ok s → s.flatten = w := by
  induction w using getSounds.induct known with
  | case1 =>
    intro s h
    simp [getSounds] at h
    simp [h]
  | case2 c1 h1 =>
    intro s h
    simp only [getSounds, if_pos h1] at h
    cases h
    simp
  | case3 c1 h1 =>
    intro s h
    simp only [getSounds, if_neg h1] at h
    cases h
  | case4 c1 c2 rest h1 sounds hrec ih =>
    intro s h
    simp only [getSounds, if_pos h1, hrec] at h
    cases h
    simpa using ih sounds hrec
  | case5 c1 c2 rest h1 e hrec ih =>
    intro s h
    simp only [getSounds, if_pos h1, hrec] at h
    cases h
  | case6 c1 c2 rest h1 h2 sounds hrec ih =>
    intro s h
    simp only [getSounds, if_neg h1, if_pos h2, hrec] at h
    cases h
    simpa using ih sounds hrec
  | case7 c1 c2 rest h1 h2 e hrec ih =>
    intro s h
    simp only [getSounds, if_neg h1, if_pos h2, hrec] at h
    cases h
  | case8 c1 c2 rest h1 h2 =>
    intro s h
    simp only [getSounds, if_neg h1, if_neg h2] at h
    cases h


/-- Claim C8: the tokenizer scans left to right, emitting the known 2-character
digraph when possible, else the known 1-character monograph, else failing with
the unknown-symbol error; in particular with known sounds {"ch","c","h"} the
word "chch" tokenizes to ["ch","ch"] and never to ["c","h","c","h"]. -/
theorem claim_C8 :
    (∀ (known : List Sound) (c1 c2 : Char) (rest : List Char),
      getSounds known (c1 :: c2 :: rest) =
        if [c1, c2] ∈ known then Except.map (List.cons [c1, c2]) (getSounds known rest)
        else if [c1] ∈ known then Except.map (List.cons [c1]) (getSounds known (c2 :: rest))
        else Except.error "encountered unknown symbol") ∧
    (∀ (known : List Sound) (c1 : Char),
      getSounds known [c1] =
        if [c1] ∈ known then Except.ok [[c1]]
        else Except.error "encountered unknown symbol") ∧
    getSounds [['c','h'], ['c'], ['h']] ['c','h','c','h'] =
      Except.ok [['c','h'], ['c','h']] ∧
    getSounds [['c','h'], ['c'], ['h']] ['c','h','c','h'] ≠
      Except.ok [['c'], ['h'], ['c'], ['h']] := by
  refine ⟨?_, ?_, rfl, ?_⟩
  · intro known c1 c2 rest
    by_cases h1 : [c1, c2] ∈ known
    · cases hrec : getSounds known rest with
      | ok s => simp [getSounds, if_pos h1, hrec, Except.map]
      | error e => simp [getSounds, if_pos h1, hrec, Except.map]
    · by_cases h2 : [c1] ∈ known
      · cases hrec : getSounds known (c2 :: rest) with
        | ok s => simp [getSounds, if_neg h1, if_pos h2, hrec, Except.map]
        | error e => simp [getSounds, if_neg h1, if_pos h2, hrec, Except.map]
      · simp [getSounds, if_neg h1, if_neg h2]
  · intro known c1
    rfl
  · intro h
    have h2 := Except.ok.inj ((rfl :
      getSounds [['c','h'], ['c'], ['h']] ['c','h','c','h'] =
        Except.ok [['c','h'], ['c','h']]).symm.trans h)
    exact absurd h2 (by decide)

/-- Claim C9: for every word on which the tokenizer succeeds, concatenating
the returned glyph sequence gives back the word. -/
theorem claim_C9 (known : List Sound) (w : List Char) (s : List Sound)
    (h : getSounds known w = Except.ok s) : s.flatten = w :=
  getSounds_flatten known w s h

/-- Witness for C9 at the concrete word "go". -/
theorem claim_C9_witness :
    getSounds [['g'], ['o']] ['g', 'o'] = Except.ok [['g'], ['o']] ∧
    ([['g'], ['o']] : List Sound).flatten = ['g', 'o'] :=
  ⟨rfl, claim_C9 [['g'], ['o']] ['g', 'o'] [['g'], ['o']] rfl⟩

/-- The glyph sequence used to refute claim C4: the adjacent pair (b,c) occurs
three times, at positions (0,1), (3,4) and (6,7). -/
def seqC4 : List Sound := [['b'], ['c'], ['d'], ['b'], ['c'], ['d'], ['b'], ['c']]

/-- A permissive traits envelope whose pair set contains every adjacent pair
of `seqC4`, so that both versions of `validPart` exercise only the
pair-sequence rules on it. -/
def traitsC4 : Traits :=
  { maxNVowels := 9, maxConseqVow := 9, maxConseqCons := 9,
    pairSet := [(['b'], ['c']), (['c'], ['d']), (['d'], ['b'])], vowels := [['a']] }

/-- Claim C4 (refuting evaluation): `validPairs` — and hence `validPart`, in
both the `part_004` and the `perf.go` version — accepts a sequence in which
the same adjacent pair occurs three times, because the `countPair` scan counts
only the occurrences in the strict prefix; this contradicts the documented
contract that no pair may occur more than twice. -/
theorem claim_C4 :
    countPair seqC4 ['b'] ['c'] = 3 ∧
    (getPairs seqC4).count (['b'], ['c']) = 3 ∧
    validPairs seqC4 = true ∧
    traitsC4.validPart seqC4 = true ∧
    traitsC4.validPartHas seqC4 = true := by
  refine ⟨by decide, by decide, by decide, by decide, by decide⟩

/-- The traits envelope used to refute claim C5: its only pair is (a,b), so
the single glyph "b" is not the first element of any pair. -/
def traitsC5 : Traits :=
  { maxNVowels := 1, maxConseqVow := 1, maxConseqCons := 1,
    pairSet := [(['a'], ['b'])], vowels := [['a']] }

/-- Claim C5 (refuting evaluation): for the single glyph "b", which satisfies
all numeric caps but is not the first element of any pair of `traitsC5`, both
versions of `validPart` return `true` — the implementation falls through to
the final `return true` instead of enforcing the documented requirement. -/
theorem claim_C5 :
    numericOK traitsC5 [['b']] = true ∧
    traitsC5.pairSet.any (fun pr => pr.1 = [['b']].headD []) = false ∧
    traitsC5.validPart [['b']] = true ∧
    traitsC5.validPartHas [['b']] = true := by
  refine ⟨by decide, by decide, by decide, by decide⟩


/-- The conditions under which a single word passes per-word examination. -/
def passWord (known : List Sound) (w : List Char) : Prop :=
  2 ≤ w.length ∧ w.length ≤ 32 ∧ ∃ s, getSounds known w = Except.ok s ∧ 2 ≤ s.length

/-- The error that per-word examination reports for a word, if any; `none`
means the word is accepted.  The value does not depend on the traits
accumulator, because every failure happens before any merging. -/
def wordError (known : List Sound) (word : List Char) : Option String :=
  if !validLength word then some "the word is too short or too long"
  else
    match getSounds known word with
    | .error e => some e
    | .ok sounds => if sounds.length < 2 then some "less than two sounds found" else none

theorem examineWord_error_iff (known : List Sound) (t : Traits) (w : List Char) (e : String) :
    examineWord known t w = Except.error e ↔ wordError known w = some e := by
  unfold examineWord wordError
  cases h1 : validLength w with
  | false => simp
  | true =>
    simp only [Bool.not_true, Bool.false_eq_true, if_false]
    cases h2 : getSounds known w with
    | error e' => simp
    | ok s =>
      by_cases h3 : s.length < 2 <;> simp [h3]

theorem examineWord_ok_iff (known : List Sound) (t : Traits) (w : List Char) :
    (∃ t', examineWord known t w = Except.ok t') ↔ wordError known w = none := by
  unfold examineWord wordError
  cases h1 : validLength w with
  | false => simp
  | true =>
    simp only [Bool.not_true, Bool.false_eq_true, if_false]
    cases h2 : getSounds known w with
    | error e' => simp
    | ok s =>
      by_cases h3 : s.length < 2 <;> simp [h3]

theorem wordError_none_iff (known : List Sound) (w : List Char) :
    wordError known w = none ↔ passWord known w := by
  unfold wordError passWord validLength
  by_cases h1 : 1 < w.length ∧ w.length < 33
  · simp only [decide_eq_true h1.1, decide_eq_true h1.2, Bool.and_self, Bool.not_true,
      Bool.false_eq_true, if_false]
    cases h2 : getSounds known w with
    | error e' => simp
    | ok s =>
      by_cases h3 : s.length < 2
      · simp only [if_pos h3]
        constructor
        · intro h
          cases h
        · rintro ⟨-, -, s', hs', hlen⟩
          cases hs'
          omega
      · simp only [if_neg h3]
        constructor
        · intro
          exact ⟨by omega, by omega, s, rfl, by omega⟩
        · intro
          trivial
  · rw [Decidable.not_and_iff_or_not] at h1
    have hfalse : (decide (1 < w.length) && decide (w.length < 33)) = false := by
      rcases h1 with h | h <;> simp [decide_eq_false h]
    rw [hfalse]
    simp only [Bool.not_false, if_pos rfl]
    constructor
    · intro h
      cases h
    · rintro ⟨ha, hb, -⟩
      rcases h1 with h | h <;> omega

theorem Examine_ok_iff (known : List Sound) (t : Traits) (ws : List (List Char)) :
    (∃ t', Examine known t ws = Except.ok t') ↔ ∀ w ∈ ws, passWord known w := by
  induction ws generalizing t with
  | nil => simp [Examine]
  | cons w ws ih =>
    simp only [Examine, List.mem_cons]
    cases hw : examineWord known t w with
    | error e =>
      have hsome : wordError known w = some e := (examineWord_error_iff known t w e).mp hw
      constructor
      · rintro ⟨t', ht'⟩
        cases ht'
      · rintro h
        have h2 := (wordError_none_iff known w).mpr (h w (Or.inl rfl))
        rw [hsome] at h2
        cases h2
    | ok t1 =>
      have h0 : wordError known w = none := (examineWord_ok_iff known t w).mp ⟨t1, hw⟩
      rw [ih t1]
      constructor
      · intro h v hv
        rcases hv with rfl | hv
        · exact (wordError_none_iff known v).mp h0
        · exact h v hv
      · intro h v hv
        exact h v (Or.inr hv)

theorem Examine_first_error (known : List Sound) :
    ∀ (ws1 : List (List Char)) (t : Traits) (w : List Char) (ws2 : List (List Char)) (e : String),
      (∀ v ∈ ws1, passWord known v) → wordError known w = some e →
      Examine known t (ws1 ++ w :: ws2) = Except.error e := by
  intro ws1
  induction ws1 with
  | nil =>
    intro t w ws2 e _ hw
    have hs : examineWord known t w = Except.error e := (examineWord_error_iff known t w e).mpr hw
    simp [Examine, hs]
  | cons v ws1 ih =>
    intro t w ws2 e hpass hw
    have hv : wordError known v = none :=
      (wordError_none_iff known v).mpr (hpass v (by simp))
    rcases (examineWord_ok_iff known t v).mpr hv with ⟨t1, ht1⟩
    simp only [List.cons_append, Examine, ht1]
    exact ih t1 w ws2 e (fun u hu => hpass u (by simp [hu])) hw

/-- Claim C7: per-word examination fails exactly when the word's length is
below 2 or above 32, or tokenization fails with the unknown-symbol error, or
fewer than two glyphs result; `Examine` succeeds exactly when every word of
the sample passes, and otherwise reports the error of the first failing word
and returns no traits. -/
theorem claim_C7 :
    (∀ (known : List Sound) (t : Traits) (w : List Char),
      (∃ t', examineWord known t w = Except.ok t') ↔
        (2 ≤ w.length ∧ w.length ≤ 32 ∧
          ∃ s, getSounds known w = Except.ok s ∧ 2 ≤ s.length)) ∧
    (∀ (known : List Sound) (t : Traits) (ws : List (List Char)),
      (∃ t', Examine known t ws = Except.ok t') ↔
        ∀ w ∈ ws, 2 ≤ w.length ∧ w.length ≤ 32 ∧
          ∃ s, getSounds known w = Except.ok s ∧ 2 ≤ s.length) ∧
    (∀ (known : List Sound) (t : Traits) (ws1 : List (List Char)) (w : List Char)
        (ws2 : List (List Char)) (e : String),
      (∀ v ∈ ws1, passWord known v) → wordError known w = some e →
      Examine known t (ws1 ++ w :: ws2) = Except.error e) := by
  refine ⟨?_, ?_, ?_⟩
  · intro known t w
    rw [examineWord_ok_iff, wordError_none_iff]
    exact Iff.rfl
  · intro known t ws
    rw [Examine_ok_iff]
    exact Iff.rfl
  · intro known t ws1 w ws2 e h1 h2
    exact Examine_first_error known ws1 t w ws2 e h1 h2


theorem mem_addSound (set : List Sound) (s g : Sound) :
    g ∈ addSound set s ↔ g ∈ set ∨ g = s := by
  unfold addSound
  split
  · rename_i h
    constructor
    · exact Or.inl
    · rintro (hg | rfl)
      · exact hg
      · exact h
  · simp

theorem mem_addSounds (xs : List Sound) :
    ∀ (set : List Sound) (g : Sound), g ∈ addSounds set xs ↔ g ∈ set ∨ g ∈ xs := by
  induction xs with
  | nil => simp [addSounds]
  | cons x xs ih =>
    intro set g
    simp only [addSounds, List.foldl_cons]
    rw [show List.foldl addSound (addSound set x) xs = addSounds (addSound set x) xs from rfl,
      ih, mem_addSound]
    simp only [List.mem_cons]
    tauto

theorem mem_addPair (set : List (Sound × Sound)) (pr q : Sound × Sound) :
    q ∈ addPair set pr ↔ q ∈ set ∨ q = pr := by
  unfold addPair
  split
  · rename_i h
    constructor
    · exact Or.inl
    · rintro (hg | rfl)
      · exact hg
      · exact h
  · simp

theorem mem_addPairs (xs : List (Sound × Sound)) :
    ∀ (set : List (Sound × Sound)) (q : Sound × Sound),
      q ∈ addPairs set xs ↔ q ∈ set ∨ q ∈ xs := by
  induction xs with
  | nil => simp [addPairs]
  | cons x xs ih =>
    intro set q
    simp only [addPairs, List.foldl_cons]
    rw [show List.foldl addPair (addPair set x) xs = addPairs (addPair set x) xs from rfl,
      ih, mem_addPair]
    simp only [List.mem_cons]
    tauto

theorem examineWord_ok_elim (known : List Sound) (t : Traits) (w : List Char) (t' : Traits)
    (h : examineWord known t w = Except.ok t') :
    ∃ s, getSounds known w = Except.ok s ∧ 2 ≤ s.length ∧
      t' = { t with
        minNSounds := mergeMin t.minNSounds s.length
        maxNSounds := mergeMax t.maxNSounds s.length
        minNVowels := mergeMin t.minNVowels (t.countVowels s)
        maxNVowels := mergeMax t.maxNVowels (t.countVowels s)
        maxConseqVow := mergeMax t.maxConseqVow (maxConsequtiveVowels t.vowels s)
        maxConseqCons := mergeMax t.maxConseqCons (maxConsequtiveConsonants t.vowels s)
        soundSet := addSounds t.soundSet s
        pairSet := addPairs t.pairSet (getPairs s) } := by
  unfold examineWord at h
  split at h
  · cases h
  · split at h
    · cases h
    · rename_i s heq
      split at h
      · cases h
      · rename_i hlen
        cases h
        exact ⟨s, heq, by omega, rfl⟩

/-- Minimum of a list of naturals, with 0 for the empty list. -/
def listMin : List Nat → Nat
  | [] => 0
  | x :: xs => xs.foldl min x

/-- Maximum of a list of naturals, with 0 for the empty list. -/
def listMax (l : List Nat) : Nat := l.foldl max 0

theorem mergeMax_eq_max (m n : Nat) : mergeMax m n = max m n := by
  unfold mergeMax
  split <;> omega

theorem mergeMin_pos (m n : Nat) (hm : 0 < m) : mergeMin m n = min m n := by
  unfold mergeMin
  split <;> omega

theorem foldl_mergeMax_zero (l : List Nat) : l.foldl mergeMax 0 = listMax l := by
  have h : mergeMax = fun m n => max m n := by
    funext m n
    exact mergeMax_eq_max m n
  rw [h]
  rfl

theorem foldl_mergeMin_pos_aux : ∀ (xs : List Nat) (a : Nat), 0 < a → (∀ n ∈ xs, 0 < n) →
    xs.foldl mergeMin a = xs.foldl min a := by
  intro xs
  induction xs with
  | nil => intro a _ _; rfl
  | cons x xs ih =>
    intro a ha hx
    simp only [List.foldl_cons]
    rw [mergeMin_pos a x ha]
    exact ih (min a x) (lt_min ha (hx x (by simp))) (fun n hn => hx n (by simp [hn]))

theorem foldl_mergeMin_zero (l : List Nat) (hne : l ≠ []) (hpos : ∀ n ∈ l, 0 < n) :
    l.foldl mergeMin 0 = listMin l := by
  cases l with
  | nil => cases hne rfl
  | cons x xs =>
    simp only [List.foldl_cons, listMin]
    have hx : mergeMin 0 x = x := by unfold mergeMin; simp
    rw [hx]
    exact foldl_mergeMin_pos_aux xs x (hpos x (by simp)) (fun n hn => hpos n (by simp [hn]))

theorem Examine_fields (known : List Sound) :
    ∀ (ws : List (List Char)) (t tr : Traits), Examine known t ws = Except.ok tr →
    ∃ sds, List.Forall₂ (fun w s => getSounds known w = Except.ok s ∧ 2 ≤ s.length) ws sds ∧
      tr.minNSounds = (sds.map List.length).foldl mergeMin t.minNSounds ∧
      tr.maxNSounds = (sds.map List.length).foldl mergeMax t.maxNSounds ∧
      tr.minNVowels = (sds.map (fun s => countIntersections s t.vowels)).foldl mergeMin t.minNVowels ∧
      tr.maxNVowels = (sds.map (fun s => countIntersections s t.vowels)).foldl mergeMax t.maxNVowels ∧
      tr.maxConseqVow = (sds.map (maxConsequtiveVowels t.vowels)).foldl mergeMax t.maxConseqVow ∧
      tr.maxConseqCons = (sds.map (maxConsequtiveConsonants t.vowels)).foldl mergeMax t.maxConseqCons ∧
      (∀ g, g ∈ tr.soundSet ↔ g ∈ t.soundSet ∨ ∃ s ∈ sds, g ∈ s) ∧
      (∀ pr, pr ∈ tr.pairSet ↔ pr ∈ t.pairSet ∨ ∃ s ∈ sds, pr ∈ getPairs s) ∧
      tr.vowels = t.vowels := by
  intro ws
  induction ws with
  | nil =>
    intro t tr h
    cases h
    exact ⟨[], List.Forall₂.nil, rfl, rfl, rfl, rfl, rfl, rfl, by simp, by simp, rfl⟩
  | cons w ws ih =>
    intro t tr h
    unfold Examine at h
    cases hw : examineWord known t w with
    | error e => rw [hw] at h; cases h
    | ok t1 =>
      rw [hw] at h
      rcases examineWord_ok_elim known t w t1 hw with ⟨s, hs, hlen, ht1⟩
      rcases ih t1 tr h with ⟨sds, hfa, e1, e2, e3, e4, e5, e6, e7, e8, e9⟩
      have hv : t1.vowels = t.vowels := by rw [ht1]
      refine ⟨s :: sds, List.Forall₂.cons ⟨hs, hlen⟩ hfa, ?_, ?_, ?_, ?_, ?_, ?_, ?_, ?_, ?_⟩
      · rw [e1, ht1]
        simp
      · rw [e2, ht1]
        simp
      · rw [e3, hv, ht1]
        simp [Traits.countVowels]
      · rw [e4, hv, ht1]
        simp [Traits.countVowels]
      · rw [e5, hv, ht1]
        simp
      · rw [e6, hv, ht1]
        simp
      · intro g
        rw [e7]
        rw [show t1.soundSet = addSounds t.soundSet s from by rw [ht1]]
        rw [mem_addSounds]
        simp only [List.mem_cons]
        constructor
        · rintro ((hg | hg) | ⟨s', hs', hg⟩)
          · exact Or.inl hg
          · exact Or.inr ⟨s, Or.inl rfl, hg⟩
          · exact Or.inr ⟨s', Or.inr hs', hg⟩
        · rintro (hg | ⟨s', (rfl | hs'), hg⟩)
          · exact Or.inl (Or.inl hg)
          · exact Or.inl (Or.inr hg)
          · exact Or.inr ⟨s', hs', hg⟩
      · intro pr
        rw [e8]
        rw [show t1.pairSet = addPairs t.pairSet (getPairs s) from by rw [ht1]]
        rw [mem_addPairs]
        simp only [List.mem_cons]
        constructor
        · rintro ((hg | hg) | ⟨s', hs', hg⟩)
          · exact Or.inl hg
          · exact Or.inr ⟨s, Or.inl rfl, hg⟩
          · exact Or.inr ⟨s', Or.inr hs', hg⟩
        · rintro (hg | ⟨s', (rfl | hs'), hg⟩)
          · exact Or.inl (Or.inl hg)
          · exact Or.inl (Or.inr hg)
          · exact Or.inr ⟨s', hs', hg⟩
      · rw [e9, hv]

/-- The traits accumulator produced by `new(Traits)` in Go: all counters zero
and both sets empty, with `v` standing for the resolved vowel set. -/
def zeroTraits (v : List Sound) : Traits := { vowels := v }

theorem forall2_mem_right {α : Type} {β : Type} {R : α → β → Prop} :
    ∀ {ws : List α} {sds : List β}, List.Forall₂ R ws sds → ∀ s ∈ sds, ∃ w ∈ ws, R w s := by
  intro ws sds h
  induction h with
  | nil => simp
  | cons hr _ ih =>
    intro s hs
    rcases hs with _ | hs
    · exact ⟨_, by simp, hr⟩
    · rcases ih s (by assumption) with ⟨w, hw, hws⟩
      exact ⟨w, by simp [hw], hws⟩

/-- Claim C6, amended: for a non-empty successfully examined sample, the
extracted bounds are the min/max of the per-word statistics and the sets are
the unions of the per-word sets — except that `minNVowels` equals the minimum
of the per-word vowel counts only when every word has at least one vowel (the
merge treats 0 as "unset", so zero-vowel words do not lower the minimum). -/
theorem claim_C6 (known v : List Sound) (ws : List (List Char)) (t : Traits)
    (hok : Examine known (zeroTraits v) ws = Except.ok t) (hne : ws ≠ []) :
    ∃ sds, List.Forall₂ (fun w s => getSounds known w = Except.ok s) ws sds ∧
      t.minNSounds = listMin (sds.map List.length) ∧
      t.maxNSounds = listMax (sds.map List.length) ∧
      ((∀ s ∈ sds, 0 < countIntersections s v) →
        t.minNVowels = listMin (sds.map (fun s => countIntersections s v))) ∧
      t.maxNVowels = listMax (sds.map (fun s => countIntersections s v)) ∧
      t.maxConseqVow = listMax (sds.map (maxConsequtiveVowels v)) ∧
      t.maxConseqCons = listMax (sds.map (maxConsequtiveConsonants v)) ∧
      (∀ g, g ∈ t.soundSet ↔ ∃ s ∈ sds, g ∈ s) ∧
      (∀ pr, pr ∈ t.pairSet ↔ ∃ s ∈ sds, pr ∈ getPairs s) := by
  rcases Examine_fields known ws (zeroTraits v) t hok with
    ⟨sds, hfa, e1, e2, e3, e4, e5, e6, e7, e8, _⟩
  have hvv : (zeroTraits v).vowels = v := rfl
  rw [hvv] at e3 e4 e5 e6
  have hlen2 : ∀ s ∈ sds, 2 ≤ s.length := by
    intro s hs
    rcases forall2_mem_right hfa s hs with ⟨w, _, _, h2⟩
    exact h2
  have hsne : sds ≠ [] := by
    intro h0
    apply hne
    have := hfa.length_eq
    rw [h0] at this
    simpa using List.length_eq_zero.mp this
  refine ⟨sds, hfa.imp (fun a b hab => hab.1), ?_, ?_, ?_, ?_, ?_, ?_, ?_, ?_⟩
  · rw [e1]
    exact foldl_mergeMin_zero _ (by simpa using hsne)
      (by intro n hn; rcases List.mem_map.mp hn with ⟨s, hs, rfl⟩; have := hlen2 s hs; omega)
  · rw [e2]
    exact foldl_mergeMax_zero _
  · intro hpos
    rw [e3]
    exact foldl_mergeMin_zero _ (by simpa using hsne)
      (by intro n hn; rcases List.mem_map.mp hn with ⟨s, hs, rfl⟩; exact hpos s hs)
  · rw [e4]
    exact foldl_mergeMax_zero _
  · rw [e5]
    exact foldl_mergeMax_zero _
  · rw [e6]
    exact foldl_mergeMax_zero _
  · intro g
    rw [e7]
    simp [zeroTraits]
  · intro pr
    rw [e8]
    simp [zeroTraits]

/-- Counterexample to claim C6 as stated: examining the sample
["bcdf", "ab"] (no vowels, then one vowel "a") yields `minNVowels = 1`,
while the minimum per-word vowel count over the sample is 0. -/
theorem claim_C6_counterexample :
    (Examine [['b'],['c'],['d'],['f'],['a']] (zeroTraits [['a']])
        [['b','c','d','f'], ['a','b']]).map Traits.minNVowels = Except.ok 1 ∧
    getSounds [['b'],['c'],['d'],['f'],['a']] ['b','c','d','f'] =
      Except.ok [['b'],['c'],['d'],['f']] ∧
    getSounds [['b'],['c'],['d'],['f'],['a']] ['a','b'] = Except.ok [['a'],['b']] ∧
    listMin ([[['b'],['c'],['d'],['f']], [['a'],['b']]].map
      (fun s => countIntersections s [['a']])) = 0 ∧
    (1 : Nat) ≠ 0 := by
  refine ⟨rfl, rfl, rfl, by decide, by decide⟩

/-- Witness for C6 on the sample ["ab", "ba"], where every word has a vowel. -/
theorem claim_C6_witness :
    ∃ sds, List.Forall₂ (fun w s => getSounds [['a'],['b']] w = Except.ok s)
        [['a','b'], ['b','a']] sds ∧
      (Traits.mk 2 2 1 1 1 1 [['a'],['b']] [(['a'],['b']), (['b'],['a'])] [['a']]).minNSounds
        = listMin (sds.map List.length) ∧
      (Traits.mk 2 2 1 1 1 1 [['a'],['b']] [(['a'],['b']), (['b'],['a'])] [['a']]).maxNSounds
        = listMax (sds.map List.length) ∧
      ((∀ s ∈ sds, 0 < countIntersections s [['a']]) →
        (Traits.mk 2 2 1 1 1 1 [['a'],['b']] [(['a'],['b']), (['b'],['a'])] [['a']]).minNVowels
          = listMin (sds.map (fun s => countIntersections s [['a']]))) ∧
      (Traits.mk 2 2 1 1 1 1 [['a'],['b']] [(['a'],['b']), (['b'],['a'])] [['a']]).maxNVowels
        = listMax (sds.map (fun s => countIntersections s [['a']])) ∧
      (Traits.mk 2 2 1 1 1 1 [['a'],['b']] [(['a'],['b']), (['b'],['a'])] [['a']]).maxConseqVow
        = listMax (sds.map (maxConsequtiveVowels [['a']])) ∧
      (Traits.mk 2 2 1 1 1 1 [['a'],['b']] [(['a'],['b']), (['b'],['a'])] [['a']]).maxConseqCons
        = listMax (sds.map (maxConsequtiveConsonants [['a']])) ∧
      (∀ g, g ∈ (Traits.mk 2 2 1 1 1 1 [['a'],['b']] [(['a'],['b']), (['b'],['a'])] [['a']]).soundSet
        ↔ ∃ s ∈ sds, g ∈ s) ∧
      (∀ pr, pr ∈ (Traits.mk 2 2 1 1 1 1 [['a'],['b']] [(['a'],['b']), (['b'],['a'])] [['a']]).pairSet
        ↔ ∃ s ∈ sds, pr ∈ getPairs s) :=
  claim_C6 [['a'],['b']] [['a']] [['a','b'], ['b','a']]
    (Traits.mk 2 2 1 1 1 1 [['a'],['b']] [(['a'],['b']), (['b'],['a'])] [['a']])
    rfl (by decide)


/-- Witness for C7: applying the first-failure clause to the one-word sample
[“x”], whose single character fails the length bound. -/
theorem claim_C7_witness :
    Examine [['a'],['b']] {} ([] ++ ['x'] :: []) =
      Except.error "the word is too short or too long" :=
  claim_C7.2.2 [['a'],['b']] {} [] ['x'] [] "the word is too short or too long"
    (by simp) rfl


theorem countIntersections_append (a b : List Sound) (set : List Sound) :
    countIntersections (a ++ b) set = countIntersections a set + countIntersections b set := by
  induction a with
  | nil => simp [countIntersections]
  | cons x xs ih =>
    simp only [List.cons_append, countIntersections, List.append_eq]
    rw [ih]
    omega

theorem maxConseqAux_ge (p : Sound → Bool) :
    ∀ (l : List Sound) (c m : Nat), m ≤ maxConseqAux p l c m := by
  intro l
  induction l with
  | nil => intro c m; simp [maxConseqAux]
  | cons s rest ih =>
    intro c m
    unfold maxConseqAux
    split
    · exact le_trans (le_max_left m (c + 1)) (ih (c + 1) (max m (c + 1)))
    · exact ih 0 m

theorem maxConseqAux_append_ge (p : Sound → Bool) :
    ∀ (a b : List Sound) (c m : Nat), maxConseqAux p a c m ≤ maxConseqAux p (a ++ b) c m := by
  intro a
  induction a with
  | nil => intro b c m; exact maxConseqAux_ge p b c m
  | cons s rest ih =>
    intro b c m
    simp only [List.cons_append]
    unfold maxConseqAux
    split
    · exact ih b (c + 1) (max m (c + 1))
    · exact ih b 0 m

theorem maxConsequtiveVowels_append_ge (vowels : List Sound) (a b : List Sound) :
    maxConsequtiveVowels vowels a ≤ maxConsequtiveVowels vowels (a ++ b) :=
  maxConseqAux_append_ge _ a b 0 0

theorem maxConsequtiveConsonants_append_ge (vowels : List Sound) (a b : List Sound) :
    maxConsequtiveConsonants vowels a ≤ maxConsequtiveConsonants vowels (a ++ b) :=
  maxConseqAux_append_ge _ a b 0 0

theorem conseqCons_length_bound (vowels : List Sound) (C : Nat) :
    ∀ (l : List Sound) (c m : Nat), c ≤ C →
      maxConseqAux (fun s => !decide (s ∈ vowels)) l c m ≤ C →
      l.length ≤ countIntersections l vowels * (C + 1) + (C - c) := by
  intro l
  induction l with
  | nil => intro c m _ _; simp [countIntersections]
  | cons s rest ih =>
    intro c m hc haux
    unfold maxConseqAux at haux
    by_cases hs : s ∈ vowels
    · rw [if_neg (by simp [hs])] at haux
      have h1 := ih 0 m (Nat.zero_le C) haux
      have h2 : countIntersections (s :: rest) vowels = 1 + countIntersections rest vowels := by
        simp [countIntersections, hs]
      simp only [List.length_cons, h2]
      have hexp : (1 + countIntersections rest vowels) * (C + 1)
          = (C + 1) + countIntersections rest vowels * (C + 1) := by ring
      rw [hexp]
      omega
    · rw [if_pos (by simp [hs])] at haux
      have hcnext : c + 1 ≤ C :=
        le_trans (le_trans (le_max_right m (c + 1)) (maxConseqAux_ge _ rest (c + 1) _)) haux
      have h1 := ih (c + 1) (max m (c + 1)) hcnext haux
      have h2 : countIntersections (s :: rest) vowels = countIntersections rest vowels := by
        simp [countIntersections, hs]
      simp only [List.length_cons, h2]
      omega

/-- Bound used to size the fuel of both walkers: any glyph sequence passing
the numeric caps has at most this many glyphs. -/
def lenCap (t : Traits) : Nat :=
  t.maxNVowels * (t.maxConseqCons + 1) + t.maxConseqCons

theorem numericOK_length_le (t : Traits) (sounds : List Sound)
    (h : numericOK t sounds = true) : sounds.length ≤ lenCap t := by
  unfold numericOK at h
  simp only [Bool.not_eq_true', decide_eq_false_iff_not] at h
  push_neg at h
  rcases h with ⟨h1, h2, h3⟩
  have hb := conseqCons_length_bound t.vowels t.maxConseqCons sounds 0 0
    (Nat.zero_le _) h3
  have hcv : t.countVowels sounds ≤ t.maxNVowels := h1
  unfold lenCap
  unfold Traits.countVowels at hcv
  have hmul : countIntersections sounds t.vowels * (t.maxConseqCons + 1) ≤
      t.maxNVowels * (t.maxConseqCons + 1) := Nat.mul_le_mul_right _ hcv
  omega

theorem numericOK_of_append (t : Traits) (a b : List Sound)
    (h : numericOK t (a ++ b) = true) : numericOK t a = true := by
  unfold numericOK at h ⊢
  simp only [Bool.not_eq_true', decide_eq_false_iff_not] at h ⊢
  push_neg at h ⊢
  rcases h with ⟨h1, h2, h3⟩
  unfold Traits.countVowels at h1 ⊢
  rw [countIntersections_append] at h1
  exact ⟨by omega,
    le_trans (maxConsequtiveVowels_append_ge t.vowels a b) h2,
    le_trans (maxConsequtiveConsonants_append_ge t.vowels a b) h3⟩

theorem validPart_numericOK (t : Traits) (sounds : List Sound)
    (h : t.validPart sounds = true) : numericOK t sounds = true := by
  unfold Traits.validPart at h
  cases hn : numericOK t sounds with
  | false => rw [hn] at h; simp at h
  | true => rfl

theorem validPartHas_numericOK (t : Traits) (sounds : List Sound)
    (h : t.validPartHas sounds = true) : numericOK t sounds = true := by
  unfold Traits.validPartHas at h
  cases hn : numericOK t sounds with
  | false => rw [hn] at h; simp at h
  | true => rfl

theorem validPart_length_le (t : Traits) (sounds : List Sound)
    (h : t.validPart sounds = true) : sounds.length ≤ lenCap t :=
  numericOK_length_le t sounds (validPart_numericOK t sounds h)

theorem validPartHas_length_le (t : Traits) (sounds : List Sound)
    (h : t.validPartHas sounds = true) : sounds.length ≤ lenCap t :=
  numericOK_length_le t sounds (validPartHas_numericOK t sounds h)

theorem validPart_singleton (t : Traits) (s : Sound) :
    t.validPart [s] = numericOK t [s] := by
  unfold Traits.validPart
  cases hn : numericOK t [s] with
  | false => simp
  | true =>
    simp only [Bool.not_true, Bool.false_eq_true, if_false]
    split
    · rfl
    · rw [if_neg (by simp)]

theorem validPartHas_singleton (t : Traits) (s : Sound) :
    t.validPartHas [s] = numericOK t [s] := by
  unfold Traits.validPartHas
  cases hn : numericOK t [s] with
  | false => simp
  | true =>
    simp only [Bool.not_true, Bool.false_eq_true, if_false]
    split
    · rfl
    · rw [if_neg (by simp)]

theorem validPart_take_two_of_take_one (t : Traits) (p : Path)
    (h1 : t.validPart (p.take 1) = false) (h2 : 2 ≤ p.length) :
    t.validPart (p.take 2) = false := by
  match p, h2 with
  | a :: b :: rest, _ =>
    have ht1 : (a :: b :: rest).take 1 = [a] := rfl
    have ht2 : (a :: b :: rest).take 2 = [a] ++ [b] := rfl
    rw [ht1, validPart_singleton] at h1
    rw [ht2]
    have hnum : numericOK t ([a] ++ [b]) = false := by
      cases hn : numericOK t ([a] ++ [b]) with
      | false => rfl
      | true => rw [numericOK_of_append t [a] [b] hn] at h1; cases h1
    unfold Traits.validPart
    rw [hnum]
    simp


theorem chain'_getD {R : Sound → Sound → Prop} (q : Path) (h : List.Chain' R q) (i : Nat)
    (hi : i + 1 < q.length) : R (q.getD i []) (q.getD (i + 1) []) := by
  rw [List.chain'_iff_get] at h
  have h2 := h i (by omega)
  rw [List.getD_eq_getElem?_getD, List.getD_eq_getElem?_getD,
    List.getElem?_eq_getElem (by omega : i < q.length),
    List.getElem?_eq_getElem (by omega : i + 1 < q.length)]
  simpa using h2

theorem getLastD_eq_getD (l : Path) :
    l.getLastD [] = l.getD (l.length - 1) [] := by
  rw [List.getLastD_eq_getLast?, List.getLast?_eq_getElem?, List.getD_eq_getElem?_getD]

theorem take_getD (q : Path) (n j : Nat) (hj : j < n) :
    (q.take n).getD j [] = q.getD j [] := by
  rw [List.getD_eq_getElem?_getD, List.getD_eq_getElem?_getD, List.getElem?_take, if_pos hj]

theorem take_succ_getD (q : Path) (n : Nat) (hn : n < q.length) :
    q.take (n + 1) = q.take n ++ [q.getD n []] := by
  rw [List.take_succ, List.getElem?_eq_getElem hn]
  rw [List.getD_eq_getElem?_getD, List.getElem?_eq_getElem hn]
  rfl

theorem drop_cons_getD (q : Path) (n : Nat) (hn : n < q.length) :
    q.drop n = q.getD n [] :: q.drop (n + 1) := by
  rw [List.drop_eq_getElem_cons hn]
  rw [List.getD_eq_getElem?_getD, List.getElem?_eq_getElem hn]
  rfl

/-- The adjacency relation induced by a traits envelope's pair set. -/
def pairRel (t : Traits) (a b : Sound) : Prop := (a, b) ∈ t.pairSet

/-- Validity of a path and of every non-empty prefix, as established step by
step by the walkers. -/
def ChainOK (t : Traits) (sounds : Path) : Prop :=
  List.Chain' (pairRel t) sounds ∧
    ∀ k, 1 ≤ k → k ≤ sounds.length → t.validPart (sounds.take k) = true

/-- Membership in the complete word set defined by a traits envelope: at least
two glyphs, adjacent glyphs forming pairs of the envelope, every prefix of
length at least two a valid partial word, and the whole a valid complete word.
Both walkers emit exactly these paths. -/
def InSet (t : Traits) (p : Path) : Prop :=
  2 ≤ p.length ∧ List.Chain' (pairRel t) p ∧
    (∀ k, 2 ≤ k → k ≤ p.length → t.validPart (p.take k) = true) ∧
    t.checkPart p = true

/-- One level of the pure walker `Traits.walk` from `perf.go`: iterate the
pair set; for each pair starting with the last sound of the current path,
extend the path, skip it when it is not a valid partial word, emit it when it
is a valid complete word, and recurse. -/
def pureStep (t : Traits) (deeper : Path → List Path) (sounds : Path) :
    List (Sound × Sound) → List Path
  | [] => []
  | pr :: rest =>
    if pr.1 = sounds.getLastD [] then
      (let path := sounds ++ [pr.2]
       if t.validPartHas path then
         (if t.checkPart path then [path] else []) ++ deeper path
       else []) ++ pureStep t deeper sounds rest
    else pureStep t deeper sounds rest

/-- The pure walker with explicit recursion depth.  Validity of partial words
bounds every path by `lenCap t` glyphs, so any fuel above that bound makes the
walker behave exactly like the unbounded Go recursion. -/
def pureWalk (t : Traits) : Nat → Path → List Path
  | 0, _ => []
  | fuel + 1, sounds => pureStep t (pureWalk t fuel) sounds t.pairSet

/-- The root level of `Traits.walk`: one first-level child per distinct first
element of the pair set. -/
def pureRoot (t : Traits) : List (Sound × Sound) → List Sound → List Path
  | [], _ => []
  | pr :: rest, firsts =>
    if pr.1 ∈ firsts then pureRoot t rest firsts
    else pureWalk t (lenCap t + 1) [pr.1] ++ pureRoot t rest (pr.1 :: firsts)

/-- The full pure walker `Traits.walk`: every complete word's glyph path. -/
def Twalk (t : Traits) : List Path := pureRoot t t.pairSet []

/-- `Traits.Words`: the words of the pure walker, as character strings. -/
def Twords (t : Traits) : List (List Char) := (Twalk t).map List.flatten

theorem pureStep_mem (t : Traits) (deeper : Path → List Path) (sounds : Path) :
    ∀ (pairs : List (Sound × Sound)) (q : Path),
      q ∈ pureStep t deeper sounds pairs ↔
        ∃ pr ∈ pairs, pr.1 = sounds.getLastD [] ∧
          t.validPartHas (sounds ++ [pr.2]) = true ∧
          ((q = sounds ++ [pr.2] ∧ t.checkPart (sounds ++ [pr.2]) = true) ∨
            q ∈ deeper (sounds ++ [pr.2])) := by
  intro pairs
  induction pairs with
  | nil => simp [pureStep]
  | cons pr rest ih =>
    intro q
    have hgoal : (∃ pr' ∈ pr :: rest, pr'.1 = sounds.getLastD [] ∧
          t.validPartHas (sounds ++ [pr'.2]) = true ∧
          ((q = sounds ++ [pr'.2] ∧ t.checkPart (sounds ++ [pr'.2]) = true) ∨
            q ∈ deeper (sounds ++ [pr'.2]))) ↔
        ((pr.1 = sounds.getLastD [] ∧
          t.validPartHas (sounds ++ [pr.2]) = true ∧
          ((q = sounds ++ [pr.2] ∧ t.checkPart (sounds ++ [pr.2]) = true) ∨
            q ∈ deeper (sounds ++ [pr.2]))) ∨
          (∃ pr' ∈ rest, pr'.1 = sounds.getLastD [] ∧
            t.validPartHas (sounds ++ [pr'.2]) = true ∧
            ((q = sounds ++ [pr'.2] ∧ t.checkPart (sounds ++ [pr'.2]) = true) ∨
              q ∈ deeper (sounds ++ [pr'.2])))) := by
      simp only [List.mem_cons, exists_eq_or_imp]
    rw [hgoal]
    unfold pureStep
    by_cases h1 : pr.1 = sounds.getLastD []
    · rw [if_pos h1, List.mem_append, ih]
      apply or_congr_left
      by_cases h2 : t.validPartHas (sounds ++ [pr.2]) = true
      · rw [if_pos h2]
        by_cases h3 : t.checkPart (sounds ++ [pr.2]) = true
        · rw [if_pos h3]
          simp only [List.mem_append, List.mem_singleton]
          constructor
          · rintro (rfl | hq)
            · exact ⟨h1, h2, Or.inl ⟨rfl, h3⟩⟩
            · exact ⟨h1, h2, Or.inr hq⟩
          · rintro ⟨-, -, ⟨rfl, -⟩ | hq⟩
            · exact Or.inl rfl
            · exact Or.inr hq
        · rw [if_neg h3]
          simp only [List.nil_append]
          constructor
          · intro hq
            exact ⟨h1, h2, Or.inr hq⟩
          · rintro ⟨-, -, ⟨rfl, hc⟩ | hq⟩
            · exact absurd hc h3
            · exact hq
      · rw [if_neg h2]
        simp only [List.not_mem_nil, false_iff]
        rintro ⟨-, hv, -⟩
        exact h2 hv
    · rw [if_neg h1, ih]
      constructor
      · intro hq
        exact Or.inr hq
      · rintro (⟨hfst, -⟩ | hq)
        · exact absurd hfst h1
        · exact hq

/-- The set of paths the pure walker reaches strictly below a given non-empty
path: extensions of `sounds` whose suffix from the last sound of `sounds`
onward is a pair chain, whose extension prefixes are all valid partial words,
and which are valid complete words. -/
def Below (t : Traits) (sounds p : Path) : Prop :=
  p.take sounds.length = sounds ∧ sounds.length < p.length ∧
    List.Chain' (pairRel t) (p.drop (sounds.length - 1)) ∧
    (∀ k, sounds.length < k → k ≤ p.length → t.validPartHas (p.take k) = true) ∧
    t.checkPart p = true

theorem below_single (t : Traits) (sounds : Path) (b : Sound) (hne : sounds ≠ [])
    (hrel : pairRel t (sounds.getLastD []) b)
    (hvp : t.validPartHas (sounds ++ [b]) = true)
    (hcp : t.checkPart (sounds ++ [b]) = true) :
    Below t sounds (sounds ++ [b]) := by
  have hn : 0 < sounds.length := List.length_pos.mpr hne
  refine ⟨List.take_left' rfl, by simp, ?_, ?_, hcp⟩
  · rw [List.drop_append_of_le_length (by omega)]
    rw [drop_cons_getD sounds (sounds.length - 1) (by omega)]
    have h2 : sounds.drop (sounds.length - 1 + 1) = [] := by
      have : sounds.length - 1 + 1 = sounds.length := by omega
      rw [this, List.drop_length]
    rw [h2]
    rw [show sounds.getD (sounds.length - 1) [] = sounds.getLastD [] from
      (getLastD_eq_getD sounds).symm]
    simpa [List.chain'_pair] using hrel
  · intro k hk1 hk2
    rw [List.length_append] at hk2
    have hkeq : k = sounds.length + 1 := by simp at hk2 ⊢; omega
    rw [hkeq, List.take_of_length_le (by simp)]
    exact hvp

theorem below_step (t : Traits) (sounds : Path) (b : Sound) (q : Path) (hne : sounds ≠ [])
    (hrel : pairRel t (sounds.getLastD []) b)
    (hvp : t.validPartHas (sounds ++ [b]) = true)
    (hb : Below t (sounds ++ [b]) q) :
    Below t sounds q := by
  have hn : 0 < sounds.length := List.length_pos.mpr hne
  rcases hb with ⟨ht, hlt, hch, hval, hcp⟩
  rw [List.length_append, List.length_singleton] at ht hlt hch hval
  rw [Nat.add_sub_cancel] at hch
  have htake : q.take sounds.length = sounds := by
    have h0 : (q.take (sounds.length + 1)).take sounds.length = q.take sounds.length := by
      rw [List.take_take, min_eq_left (by omega)]
    rw [← h0, ht, List.take_append_of_le_length (by omega), List.take_length]
  have h1 : q.getD (sounds.length - 1) [] = sounds.getLastD [] := by
    have h0 := take_getD q sounds.length (sounds.length - 1) (by omega)
    rw [htake] at h0
    rw [getLastD_eq_getD]
    exact h0.symm
  have h2 : q.getD sounds.length [] = b := by
    have h3 := take_getD q (sounds.length + 1) sounds.length (by omega)
    rw [ht] at h3
    rw [← h3, List.getD_eq_getElem?_getD, List.getElem?_concat_length sounds b]
    rfl
  refine ⟨htake, by omega, ?_, ?_, hcp⟩
  · have hd1 : q.drop (sounds.length - 1) = q.getD (sounds.length - 1) [] :: q.drop sounds.length := by
      rw [drop_cons_getD q (sounds.length - 1) (by omega)]
      congr 2
      omega
    rw [hd1, h1]
    apply List.Chain'.cons'
    · exact hch
    · intro y hy
      rw [drop_cons_getD q sounds.length (by omega)] at hy
      simp only [List.head?_cons, Option.mem_def, Option.some.injEq] at hy
      rw [← hy, h2]
      exact hrel
  · intro k hk1 hk2
    by_cases hk : sounds.length + 1 < k
    · exact hval k hk hk2
    · have hkeq : k = sounds.length + 1 := by omega
      rw [hkeq]
      have h3 := take_succ_getD q sounds.length (by omega)
      rw [h2] at h3
      rw [h3, htake]
      exact hvp

theorem below_back (t : Traits) (sounds q : Path) (hne : sounds ≠ [])
    (hb : Below t sounds q) :
    ∃ b, pairRel t (sounds.getLastD []) b ∧
      t.validPartHas (sounds ++ [b]) = true ∧
      ((q = sounds ++ [b] ∧ t.checkPart (sounds ++ [b]) = true) ∨
        Below t (sounds ++ [b]) q) := by
  have hn : 0 < sounds.length := List.length_pos.mpr hne
  rcases hb with ⟨htake, hlt, hch, hval, hcp⟩
  refine ⟨q.getD sounds.length [], ?_, ?_, ?_⟩
  · have h0 := take_getD q sounds.length (sounds.length - 1) (by omega)
    rw [htake] at h0
    have h1 : sounds.getLastD [] = q.getD (sounds.length - 1) [] := by
      rw [getLastD_eq_getD]
      exact h0
    rw [h1]
    have h2 := chain'_getD (q.drop (sounds.length - 1)) hch 0 (by
      rw [List.length_drop]
      omega)
    have h3 : (q.drop (sounds.length - 1)).getD 0 [] = q.getD (sounds.length - 1) [] := by
      rw [drop_cons_getD q (sounds.length - 1) (by omega)]
      rfl
    have h4 : (q.drop (sounds.length - 1)).getD 1 [] = q.getD sounds.length [] := by
      rw [drop_cons_getD q (sounds.length - 1) (by omega)]
      have h5 : sounds.length - 1 + 1 = sounds.length := by omega
      rw [show ((q.getD (sounds.length - 1) [] :: q.drop (sounds.length - 1 + 1)).getD 1 []) =
        (q.drop (sounds.length - 1 + 1)).getD 0 [] from rfl]
      rw [h5, drop_cons_getD q sounds.length (by omega)]
      rfl
    rw [h3, h4] at h2
    exact h2
  · have h5 := take_succ_getD q sounds.length (by omega)
    rw [htake] at h5
    rw [← h5]
    exact hval (sounds.length + 1) (by omega) (by omega)
  · have h5 := take_succ_getD q sounds.length (by omega)
    rw [htake] at h5
    by_cases hlen : q.length = sounds.length + 1
    · left
      have h6 : q = sounds ++ [q.getD sounds.length []] := by
        rw [← h5, List.take_of_length_le (by omega)]
      exact ⟨h6, by rw [← h6]; exact hcp⟩
    · right
      refine ⟨?_, ?_, ?_, ?_, hcp⟩
      · rw [List.length_append, List.length_singleton, ← h5]
      · rw [List.length_append, List.length_singleton]
        omega
      · rw [List.length_append, List.length_singleton, Nat.add_sub_cancel]
        have h7 : q.drop sounds.length = (q.drop (sounds.length - 1)).tail := by
          rw [drop_cons_getD q (sounds.length - 1) (by omega)]
          have : sounds.length - 1 + 1 = sounds.length := by omega
          rw [this]
          rfl
        rw [h7]
        exact hch.tail
      · intro k hk1 hk2
        rw [List.length_append, List.length_singleton] at hk1
        exact hval k (by omega) hk2
      
theorem pureWalk_mem (t : Traits) :
    ∀ (fuel : Nat) (sounds : Path), sounds ≠ [] →
      lenCap t + 1 < fuel + sounds.length →
      ∀ q, q ∈ pureWalk t fuel sounds ↔ Below t sounds q := by
  intro fuel
  induction fuel with
  | zero =>
    intro sounds hne hf q
    simp only [pureWalk, List.not_mem_nil, false_iff]
    rintro ⟨ht, hlt, hch, hval, hcp⟩
    have h1 := hval q.length (by omega) (le_refl _)
    rw [List.take_length] at h1
    have h2 := validPartHas_length_le t q h1
    omega
  | succ fuel ih =>
    intro sounds hne hf q
    rw [show pureWalk t (fuel + 1) sounds = pureStep t (pureWalk t fuel) sounds t.pairSet
      from rfl]
    rw [pureStep_mem]
    constructor
    · rintro ⟨pr, hpr, hfirst, hvalid, hq⟩
      have hrel : pairRel t (sounds.getLastD []) pr.2 := by
        rw [← hfirst]
        exact hpr
      rcases hq with ⟨rfl, hcp⟩ | hq
      · exact below_single t sounds pr.2 hne hrel hvalid hcp
      · have hb := (ih (sounds ++ [pr.2]) (by simp)
          (by rw [List.length_append, List.length_singleton]; omega) q).mp hq
        exact below_step t sounds pr.2 q hne hrel hvalid hb
    · intro hb
      rcases below_back t sounds q hne hb with ⟨b, hrel, hvp, hrest⟩
      refine ⟨(sounds.getLastD [], b), hrel, rfl, hvp, ?_⟩
      rcases hrest with ⟨rfl, hcp⟩ | hq
      · exact Or.inl ⟨rfl, hcp⟩
      · right
        exact (ih (sounds ++ [b]) (by simp)
          (by rw [List.length_append, List.length_singleton]; omega) q).mpr hq

theorem validPairsHasAux_eq (t : Traits) (full : List Sound) :
    ∀ (rest : List Sound) (prev : Sound) (idx : Nat) (lp pp : Sound × Sound),
      List.Chain' (pairRel t) (prev :: rest) →
      validPairsHasAux t full rest idx prev lp pp = validPairsAux full rest idx prev lp pp := by
  intro rest
  induction rest with
  | nil => intros; rfl
  | cons current rest ih =>
    intro prev idx lp pp hch
    rw [List.chain'_cons] at hch
    unfold validPairsHasAux validPairsAux
    rw [if_neg (by simpa using hch.1)]
    split
    · rfl
    · split
      · rfl
      · exact ih current (idx + 1) pp (prev, current) hch.2

theorem validPairsHas_eq (t : Traits) (sounds : List Sound)
    (h : List.Chain' (pairRel t) sounds) : validPairsHas t sounds = validPairs sounds := by
  match sounds with
  | [] => rfl
  | [s] => rfl
  | a :: b :: rest =>
    exact validPairsHasAux_eq t (a :: b :: rest) (b :: rest) a 1 ([], []) ([], []) h

theorem validPartHas_eq (t : Traits) (sounds : List Sound)
    (h : List.Chain' (pairRel t) sounds) : t.validPartHas sounds = t.validPart sounds := by
  unfold Traits.validPartHas Traits.validPart
  rw [validPairsHas_eq t sounds h]

theorem pureRoot_mem (t : Traits) :
    ∀ (pairs : List (Sound × Sound)) (firsts : List Sound) (q : Path),
      q ∈ pureRoot t pairs firsts ↔
        ∃ pr ∈ pairs, pr.1 ∉ firsts ∧ Below t [pr.1] q := by
  intro pairs
  induction pairs with
  | nil => simp [pureRoot]
  | cons pr rest ih =>
    intro firsts q
    unfold pureRoot
    by_cases h1 : pr.1 ∈ firsts
    · rw [if_pos h1, ih]
      constructor
      · rintro ⟨pr', hpr', hx⟩
        exact ⟨pr', List.mem_cons_of_mem pr hpr', hx⟩
      · rintro ⟨pr', hpr', hni, hx⟩
        rcases List.mem_cons.mp hpr' with heq | hpr'
        · rw [heq] at hni
          exact absurd h1 hni
        · exact ⟨pr', hpr', hni, hx⟩
    · rw [if_neg h1, List.mem_append, ih,
        pureWalk_mem t (lenCap t + 1) [pr.1] (by simp) (by simp) q]
      constructor
      · rintro (hb | ⟨pr', hpr', hni, hx⟩)
        · exact ⟨pr, List.mem_cons_self pr rest, h1, hb⟩
        · refine ⟨pr', List.mem_cons_of_mem pr hpr', fun hmem => hni (by simp [hmem]), hx⟩
      · rintro ⟨pr', hpr', hni, hx⟩
        rcases List.mem_cons.mp hpr' with heq | hpr'
        · by_cases hsame : pr'.1 = pr.1
          · left
            rw [← hsame]
            exact hx
          · rw [heq] at hsame
            exact absurd rfl hsame
        · by_cases hsame : pr'.1 = pr.1
          · left
            rw [← hsame]
            exact hx
          · right
            exact ⟨pr', hpr', by simp [hni, hsame], hx⟩

theorem Twalk_mem (t : Traits) (q : Path) : q ∈ Twalk t ↔ InSet t q := by
  unfold Twalk InSet
  rw [pureRoot_mem]
  constructor
  · rintro ⟨pr, hpr, -, htake, hlt, hch, hval, hcp⟩
    rw [List.length_singleton] at hlt hch hval
    have hch0 : List.Chain' (pairRel t) q := by
      simpa using hch
    refine ⟨by omega, hch0, ?_, hcp⟩
    intro k hk1 hk2
    rw [← validPartHas_eq t (q.take k) (hch0.take k)]
    exact hval k (by omega) hk2
  · rintro ⟨hlen, hch, hval, hcp⟩
    have h0 : 0 < q.length := by omega
    have h1 : 1 < q.length := by omega
    refine ⟨(q.getD 0 [], q.getD 1 []), chain'_getD q hch 0 h1, by simp, ?_, ?_, ?_, ?_, hcp⟩
    · rw [List.length_singleton]
      have h2 := take_succ_getD q 0 h0
      simpa using h2
    · rw [List.length_singleton]
      omega
    · simpa using hch
    · intro k hk1 hk2
      rw [List.length_singleton] at hk1
      rw [validPartHas_eq t (q.take k) (hch.take k)]
      exact hval k (by omega) hk2


/-- Claim C10: examining an empty sample succeeds, leaves every numeric bound
at zero and both sets empty, and the word set generated from such a traits
envelope is empty. -/
theorem claim_C10 (known v : List Sound) :
    Examine known (zeroTraits v) [] = Except.ok (zeroTraits v) ∧
    (zeroTraits v).minNSounds = 0 ∧ (zeroTraits v).maxNSounds = 0 ∧
    (zeroTraits v).minNVowels = 0 ∧ (zeroTraits v).maxNVowels = 0 ∧
    (zeroTraits v).maxConseqVow = 0 ∧ (zeroTraits v).maxConseqCons = 0 ∧
    (zeroTraits v).soundSet = [] ∧ (zeroTraits v).pairSet = [] ∧
    Twords (zeroTraits v) = [] :=
  ⟨rfl, rfl, rfl, rfl, rfl, rfl, rfl, rfl, rfl, rfl⟩

theorem getPairs_mem (s : List Sound) :
    ∀ pr ∈ getPairs s, pr.1 ∈ s ∧ pr.2 ∈ s := by
  induction s with
  | nil => simp [getPairs]
  | cons a rest ih =>
    cases rest with
    | nil => simp [getPairs]
    | cons b rest' =>
      intro pr hpr
      rw [show getPairs (a :: b :: rest') = (a, b) :: getPairs (b :: rest') from rfl] at hpr
      rcases List.mem_cons.mp hpr with rfl | hpr
      · exact ⟨by simp, by simp⟩
      · rcases ih pr hpr with ⟨h1, h2⟩
        exact ⟨List.mem_cons_of_mem a h1, List.mem_cons_of_mem a h2⟩

theorem getPairs_chain {R : Sound → Sound → Prop} (s : List Sound) (h : List.Chain' R s) :
    ∀ pr ∈ getPairs s, R pr.1 pr.2 := by
  induction s with
  | nil => simp [getPairs]
  | cons a rest ih =>
    cases rest with
    | nil => simp [getPairs]
    | cons b rest' =>
      intro pr hpr
      rw [List.chain'_cons] at h
      rw [show getPairs (a :: b :: rest') = (a, b) :: getPairs (b :: rest') from rfl] at hpr
      rcases List.mem_cons.mp hpr with rfl | hpr
      · exact h.1
      · exact ih h.2 pr hpr

theorem chain_pairs_cover (t : Traits) :
    ∀ (p : Path), 2 ≤ p.length → List.Chain' (pairRel t) p →
      ∀ g ∈ p, ∃ pr, pr ∈ t.pairSet ∧ (g = pr.1 ∨ g = pr.2) := by
  intro p
  induction p with
  | nil => simp
  | cons a rest ih =>
    intro hlen hch g hg
    cases rest with
    | nil => simp at hlen
    | cons b rest' =>
      rw [List.chain'_cons] at hch
      rcases List.mem_cons.mp hg with rfl | hg
      · exact ⟨(g, b), hch.1, Or.inl rfl⟩
      · cases rest' with
        | nil =>
          rcases List.mem_singleton.mp hg with rfl
          exact ⟨(a, g), hch.1, Or.inr rfl⟩
        | cons c rest'' =>
          exact ih (by simp) hch.2 g hg

theorem Examine_pair_components (known v : List Sound) (ws : List (List Char)) (t : Traits)
    (hok : Examine known (zeroTraits v) ws = Except.ok t) :
    ∀ pr ∈ t.pairSet, pr.1 ∈ t.soundSet ∧ pr.2 ∈ t.soundSet := by
  rcases Examine_fields known ws (zeroTraits v) t hok with
    ⟨sds, hfa, -, -, -, -, -, -, e7, e8, -⟩
  intro pr hpr
  rcases (e8 pr).mp hpr with h0 | ⟨s, hs, hin⟩
  · cases h0
  · rcases getPairs_mem s pr hin with ⟨h1, h2⟩
    exact ⟨(e7 pr.1).mpr (Or.inr ⟨s, hs, h1⟩), (e7 pr.2).mpr (Or.inr ⟨s, hs, h2⟩)⟩

theorem checkPart_bounds (t : Traits) (p : Path) (h : t.checkPart p = true) :
    t.minNVowels ≤ t.countVowels p ∧ t.countVowels p ≤ t.maxNVowels ∧
    t.minNSounds ≤ p.length ∧ p.length ≤ t.maxNSounds := by
  unfold Traits.checkPart at h
  split at h
  · cases h
  · split at h
    · cases h
    · rename_i h1 h2
      push_neg at h1 h2
      exact ⟨h1.1, h1.2, h2.1, h2.2⟩

theorem numericOK_bounds (t : Traits) (p : Path) (h : numericOK t p = true) :
    t.countVowels p ≤ t.maxNVowels ∧
    maxConsequtiveVowels t.vowels p ≤ t.maxConseqVow ∧
    maxConsequtiveConsonants t.vowels p ≤ t.maxConseqCons := by
  unfold numericOK at h
  simp only [Bool.not_eq_true', decide_eq_false_iff_not] at h
  push_neg at h
  exact h

/-- Claim C3: every word produced by the walker against traits successfully
extracted from a sample satisfies all the numeric bounds of the envelope, and
its glyphs and adjacent pairs lie in the envelope's sound and pair sets. -/
theorem claim_C3 (known v : List Sound) (ws : List (List Char)) (t : Traits) (p : Path)
    (hok : Examine known (zeroTraits v) ws = Except.ok t) (hmem : p ∈ Twalk t) :
    t.minNSounds ≤ p.length ∧ p.length ≤ t.maxNSounds ∧
    t.minNVowels ≤ t.countVowels p ∧ t.countVowels p ≤ t.maxNVowels ∧
    maxConsequtiveVowels t.vowels p ≤ t.maxConseqVow ∧
    maxConsequtiveConsonants t.vowels p ≤ t.maxConseqCons ∧
    (∀ g ∈ p, g ∈ t.soundSet) ∧
    (∀ pr ∈ getPairs p, pr ∈ t.pairSet) := by
  rcases (Twalk_mem t p).mp hmem with ⟨hlen, hch, hval, hcp⟩
  have hvp : t.validPart p = true := by
    have := hval p.length (by omega) (le_refl _)
    rwa [List.take_length] at this
  rcases numericOK_bounds t p (validPart_numericOK t p hvp) with ⟨n1, n2, n3⟩
  rcases checkPart_bounds t p hcp with ⟨c1, c2, c3, c4⟩
  refine ⟨c3, c4, c1, c2, n2, n3, ?_, ?_⟩
  · intro g hg
    rcases chain_pairs_cover t p hlen hch g hg with ⟨pr, hpr, hside⟩
    rcases Examine_pair_components known v ws t hok pr hpr with ⟨h1, h2⟩
    rcases hside with rfl | rfl
    · exact h1
    · exact h2
  · intro pr hpr
    exact getPairs_chain p hch pr hpr

/-- Witness for C3 at the sample ["go"] and the generated word "go". -/
theorem claim_C3_witness :
    (Traits.mk 2 2 1 1 1 1 [['g'],['o']] [(['g'],['o'])] [['o']]).minNSounds ≤
        ([[ 'g'],['o']] : Path).length ∧
    ([[ 'g'],['o']] : Path).length ≤
        (Traits.mk 2 2 1 1 1 1 [['g'],['o']] [(['g'],['o'])] [['o']]).maxNSounds ∧
    (Traits.mk 2 2 1 1 1 1 [['g'],['o']] [(['g'],['o'])] [['o']]).minNVowels ≤
        (Traits.mk 2 2 1 1 1 1 [['g'],['o']] [(['g'],['o'])] [['o']]).countVowels [['g'],['o']] ∧
    (Traits.mk 2 2 1 1 1 1 [['g'],['o']] [(['g'],['o'])] [['o']]).countVowels [['g'],['o']] ≤
        (Traits.mk 2 2 1 1 1 1 [['g'],['o']] [(['g'],['o'])] [['o']]).maxNVowels ∧
    maxConsequtiveVowels [['o']] [['g'],['o']] ≤
        (Traits.mk 2 2 1 1 1 1 [['g'],['o']] [(['g'],['o'])] [['o']]).maxConseqVow ∧
    maxConsequtiveConsonants [['o']] [['g'],['o']] ≤
        (Traits.mk 2 2 1 1 1 1 [['g'],['o']] [(['g'],['o'])] [['o']]).maxConseqCons ∧
    (∀ g ∈ ([[ 'g'],['o']] : Path),
      g ∈ (Traits.mk 2 2 1 1 1 1 [['g'],['o']] [(['g'],['o'])] [['o']]).soundSet) ∧
    (∀ pr ∈ getPairs [['g'],['o']],
      pr ∈ (Traits.mk 2 2 1 1 1 1 [['g'],['o']] [(['g'],['o'])] [['o']]).pairSet) :=
  claim_C3 [['g'],['o']] [['o']] [['g','o']]
    (Traits.mk 2 2 1 1 1 1 [['g'],['o']] [(['g'],['o'])] [['o']]) [['g'],['o']]
    rfl (by decide)


/-- The mutable state of the `state` object in `part_009`, keyed by tree path.
`sprouted q` models `node.nodes != nil` at the node for path `q`; `keys q`
models the key set of that child map; `visited q` models the node's flag.
`tree.at` only materializes nil child pointers into empty nodes along paths
whose keys are live, which carries no observable data, so it needs no model
state; `ctr` indexes successive draws from the random oracles. -/
structure EState where
  sprouted : Path → Bool
  keys : Path → List Sound
  visited : Path → Bool
  ctr : Nat

/-- A fresh enumerator state: an empty sidecar tree. -/
def initState : EState where
  sprouted := fun _ => false
  keys := fun _ => []
  visited := fun _ => false
  ctr := 0

/-- From `sprout(pairs, path...)`: the child keys planted at a node — at the
root the distinct first elements of the pairs, elsewhere the distinct second
elements of the pairs starting with the path's last sound (Go map keys are
distinct; `dedup` keeps the first occurrence). -/
def sproutKeys (pairs : List (Sound × Sound)) (path : Path) : List Sound :=
  match path.getLast? with
  | none => (pairs.map Prod.fst).dedup
  | some last => ((pairs.filter fun pr => pr.1 = last).map Prod.snd).dedup

/-- `node.visited = true` at the node for path `p`. -/
def setVisited (st : EState) (p : Path) : EState :=
  { st with visited := fun q => if q = p then true else st.visited q }

/-- `delete(node.nodes, sound)` at the node for path `p`. -/
def delKey (st : EState) (p : Path) (s : Sound) : EState :=
  { st with keys := fun q => if q = p then (st.keys p).erase s else st.keys q }

/-- `node.nodes = sprout(pairs, path...)` at the node for path `p`. -/
def sproutAt (pairs : List (Sound × Sound)) (st : EState) (p : Path) : EState :=
  { st with
    sprouted := fun q => if q = p then true else st.sprouted q
    keys := fun q => if q = p then sproutKeys pairs p else st.keys q }

/-- Consume one draw from the random oracles. -/
def bumpCtr (st : EState) : EState := { st with ctr := st.ctr + 1 }

/-- The loop of the inner iterator of `state.walkRandom`: visit the subpaths
`sounds[:index+1]` of the received path for each index drawn from the
permutation, skipping index 0; mark each unvisited subpath as visited, and
emit it when it is a valid complete word.  The third result component is true
when the emission interrupted the traversal (`state.trip`'s panic, raised by
its iterator right after one successful emission when `stop` is set). -/
def iterOffer (t : Traits) (st : EState) (sounds : Path) (stop : Bool) :
    List Nat → EState × List Path × Bool
  | [] => (st, [], false)
  | idx :: rest =>
    if idx < 1 then iterOffer t st sounds stop rest
    else
      if st.visited (sounds.take (idx + 1)) then iterOffer t st sounds stop rest
      else
        if t.checkPart (sounds.take (idx + 1)) = true then
          if stop then (setVisited st (sounds.take (idx + 1)), [sounds.take (idx + 1)], true)
          else
            let r := iterOffer t (setVisited st (sounds.take (idx + 1))) sounds stop rest
            (r.1, sounds.take (idx + 1) :: r.2.1, r.2.2)
        else iterOffer t (setVisited st (sounds.take (idx + 1))) sounds stop rest

/-- The inner iterator of `state.walkRandom` on a full path: draw a
permutation of `0 .. |sounds| - 1` from the oracle `P` and offer the
subpaths in that order. -/
def runIter (P : Nat → Nat → List Nat) (t : Traits) (st : EState) (sounds : Path)
    (stop : Bool) : EState × List Path × Bool :=
  iterOffer t (bumpCtr st) sounds stop (P st.ctr sounds.length)

/-- The loop body of `state.walk` over the shuffled snapshot of child keys:
extend the path by each pending key; delete the key and skip when the
extension is not a valid partial word; otherwise recurse through `deeper`
(the next level of `state.walk`), then offer the extension to the iterator
unless its node is already visited, and delete the key.  An interruption
(panic) propagates immediately, preserving all state mutations made so far
and skipping the remaining deletions. -/
def walkStep (t : Traits) (P : Nat → Nat → List Nat)
    (deeper : EState → Path → Bool → EState × List Path × Bool)
    (st : EState) (sounds : Path) (stop : Bool) :
    List Sound → EState × List Path × Bool
  | [] => (st, [], false)
  | sound :: rest =>
    if t.validPart (sounds ++ [sound]) = true then
      match deeper st (sounds ++ [sound]) stop with
      | (st1, em1, true) => (st1, em1, true)
      | (st1, em1, false) =>
        if st1.visited (sounds ++ [sound]) then
          let r := walkStep t P deeper (delKey st1 sounds sound) sounds stop rest
          (r.1, em1 ++ r.2.1, r.2.2)
        else
          match runIter P t st1 (sounds ++ [sound]) stop with
          | (st2, em2, true) => (st2, em1 ++ em2, true)
          | (st2, em2, false) =>
            let r := walkStep t P deeper (delKey st2 sounds sound) sounds stop rest
            (r.1, em1 ++ em2 ++ r.2.1, r.2.2)
    else walkStep t P deeper (delKey st sounds sound) sounds stop rest

/-- `state.walk` with explicit recursion depth (any fuel above `lenCap t`
matches the unbounded Go recursion, whose paths validity keeps below that
bound): find or create the node, sprout its child keys if its map is nil,
shuffle the current keys through the oracle `O`, and run the loop. -/
def walkD (t : Traits) (O : Nat → List Sound → List Sound) (P : Nat → Nat → List Nat) :
    Nat → EState → Path → Bool → EState × List Path × Bool
  | 0, st, _, _ => (st, [], false)
  | fuel + 1, st, sounds, stop =>
    walkStep t P (walkD t O P fuel)
      (bumpCtr (if st.sprouted sounds then st else sproutAt t.pairSet st sounds)) sounds stop
      (O (if st.sprouted sounds then st else sproutAt t.pairSet st sounds).ctr
        ((if st.sprouted sounds then st else sproutAt t.pairSet st sounds).keys sounds))

/-- One pull of the generator made by `Traits.Generator` — `state.trip`: run
`state.walkRandom` from the root and interrupt at the first emission. -/
def tripRun (t : Traits) (O : Nat → List Sound → List Sound) (P : Nat → Nat → List Nat)
    (st : EState) : EState × List Path × Bool :=
  walkD t O P (lenCap t + 2) st [] true

/-- An uninterrupted `state.walkRandom` from the root: the full drain that
collects every remaining word of the enumerator. -/
def drainRun (t : Traits) (O : Nat → List Sound → List Sound) (P : Nat → Nat → List Nat)
    (st : EState) : EState × List Path × Bool :=
  walkD t O P (lenCap t + 2) st [] false

/-- A sequence of enumerator operations on one shared state: `true` is a
single generator pull, `false` a full drain.  Returns the final state and
the concatenation of everything emitted. -/
def runOps (t : Traits) (O : Nat → List Sound → List Sound) (P : Nat → Nat → List Nat) :
    EState → List Bool → EState × List Path
  | st, [] => (st, [])
  | st, stop :: ops =>
    let r := walkD t O P (lenCap t + 2) st [] stop
    let r2 := runOps t O P r.1 ops
    (r2.1, r.2.1 ++ r2.2)

/-- The state after `n` generator pulls from a fresh enumerator. -/
def tripState (t : Traits) (O : Nat → List Sound → List Sound) (P : Nat → Nat → List Nat) :
    Nat → EState
  | 0 => initState
  | n + 1 => (tripRun t O P (tripState t O P n)).1

/-- The glyph paths emitted by the `n`-th generator pull (0-indexed). -/
def tripEmits (t : Traits) (O : Nat → List Sound → List Sound) (P : Nat → Nat → List Nat)
    (n : Nat) : List Path :=
  (tripRun t O P (tripState t O P n)).2.1

/-- A shuffle oracle is valid when each draw permutes its input, and an index
oracle when each draw permutes `0 .. k - 1`; Go's `rand.Perm`-based
`shuffle` and `permutate` satisfy exactly this for every seed. -/
def OracleOK (O : Nat → List Sound → List Sound) : Prop :=
  ∀ n l, (O n l).Perm l

/-- Validity of the index-permutation oracle (`permutate`). -/
def PermOK (P : Nat → Nat → List Nat) : Prop :=
  ∀ n k, (P n k).Perm (List.range k)


theorem setVisited_visited (st : EState) (p q : Path) :
    (setVisited st p).visited q = true ↔ q = p ∨ st.visited q = true := by
  unfold setVisited
  by_cases h : q = p <;> simp [h]

theorem setVisited_keys (st : EState) (p q : Path) :
    (setVisited st p).keys q = st.keys q := rfl

theorem setVisited_sprouted (st : EState) (p q : Path) :
    (setVisited st p).sprouted q = st.sprouted q := rfl

theorem delKey_visited (st : EState) (p : Path) (s : Sound) (q : Path) :
    (delKey st p s).visited q = st.visited q := rfl

theorem delKey_sprouted (st : EState) (p : Path) (s : Sound) (q : Path) :
    (delKey st p s).sprouted q = st.sprouted q := rfl

theorem delKey_keys_ne (st : EState) (p : Path) (s : Sound) (q : Path) (h : q ≠ p) :
    (delKey st p s).keys q = st.keys q := by
  unfold delKey
  simp [h]

theorem delKey_keys_self (st : EState) (p : Path) (s : Sound) :
    (delKey st p s).keys p = (st.keys p).erase s := by
  unfold delKey
  simp

theorem sproutAt_visited (pairs : List (Sound × Sound)) (st : EState) (p q : Path) :
    (sproutAt pairs st p).visited q = st.visited q := rfl

theorem sproutAt_keys_ne (pairs : List (Sound × Sound)) (st : EState) (p q : Path)
    (h : q ≠ p) : (sproutAt pairs st p).keys q = st.keys q := by
  unfold sproutAt
  simp [h]

theorem sproutAt_keys_self (pairs : List (Sound × Sound)) (st : EState) (p : Path) :
    (sproutAt pairs st p).keys p = sproutKeys pairs p := by
  unfold sproutAt
  simp

theorem sproutAt_sprouted_ne (pairs : List (Sound × Sound)) (st : EState) (p q : Path)
    (h : q ≠ p) : (sproutAt pairs st p).sprouted q = st.sprouted q := by
  unfold sproutAt
  simp [h]

theorem sproutAt_sprouted_self (pairs : List (Sound × Sound)) (st : EState) (p : Path) :
    (sproutAt pairs st p).sprouted p = true := by
  unfold sproutAt
  simp

/-- Structural invariant of the sidecar tree: a sprouted node's keys all come
from its sprout set (keys are only ever created by `sprout` and deleted). -/
def SINV (t : Traits) (st : EState) : Prop :=
  ∀ q s, st.sprouted q = true → s ∈ st.keys q → s ∈ sproutKeys t.pairSet q

/-- The path `p` is still reachable in the sidecar tree: wherever a node on
its way has been sprouted, the next component is among the node's keys. -/
def Reach (st : EState) (p : Path) : Prop :=
  ∀ j, j < p.length → st.sprouted (p.take j) = true → p.getD j [] ∈ st.keys (p.take j)

/-- The global no-loss invariant: every word of the set that has not yet been
offered is still reachable. -/
def INVg (t : Traits) (st : EState) : Prop :=
  ∀ p, InSet t p → st.visited p = false → Reach st p

/-- Conclusions established for one run of the inner iterator. -/
structure IterOut (t : Traits) (st : EState) (sounds : Path) (stop : Bool)
    (idxs : List Nat) (res : EState × List Path × Bool) : Prop where
  keys_eq : ∀ q, res.1.keys q = st.keys q
  sprouted_eq : ∀ q, res.1.sprouted q = st.sprouted q
  mono : ∀ p, st.visited p = true → res.1.visited p = true
  nodup : res.2.1.Nodup
  emits : ∀ p ∈ res.2.1, st.visited p = false ∧ res.1.visited p = true ∧ InSet t p
  flips : ∀ p, st.visited p = false → res.1.visited p = true → InSet t p → p ∈ res.2.1
  cover : res.2.2 = false → ∀ idx ∈ idxs, 1 ≤ idx →
    res.1.visited (sounds.take (idx + 1)) = true
  single : stop = true → (res.2.2 = false ∧ res.2.1 = []) ∨
    ∃ w, res.2.2 = true ∧ res.2.1 = [w]
  intr_ne : res.2.2 = true → res.2.1 ≠ []
  no_stop : stop = false → res.2.2 = false

theorem take_InSet (t : Traits) (sounds : Path) (hch : ChainOK t sounds) (k : Nat)
    (hk1 : 2 ≤ k) (hk2 : k ≤ sounds.length) (hcp : t.checkPart (sounds.take k) = true) :
    InSet t (sounds.take k) := by
  refine ⟨?_, hch.1.take k, ?_, hcp⟩
  · rw [List.length_take]
    omega
  · intro j hj1 hj2
    rw [List.length_take] at hj2
    rw [List.take_take, min_eq_left (by omega)]
    exact hch.2 j (by omega) (by omega)

theorem setVisited_visited_false (st : EState) (p q : Path) :
    (setVisited st p).visited q = false ↔ q ≠ p ∧ st.visited q = false := by
  unfold setVisited
  by_cases h : q = p <;> simp [h]

theorem iterOffer_spec (t : Traits) (sounds : Path) (stop : Bool) (hch : ChainOK t sounds) :
    ∀ (idxs : List Nat) (st : EState), (∀ idx ∈ idxs, idx < sounds.length) →
      IterOut t st sounds stop idxs (iterOffer t st sounds stop idxs) := by
  intro idxs
  induction idxs with
  | nil =>
    intro st _
    refine ⟨?_, ?_, ?_, ?_, ?_, ?_, ?_, ?_, ?_, ?_⟩
    · exact fun q => rfl
    · exact fun q => rfl
    · exact fun p h => h
    · exact List.nodup_nil
    · intro p hp
      simp [iterOffer] at hp
    · intro p h1 h2 _
      rw [show (iterOffer t st sounds stop []).1 = st from rfl] at h2
      rw [h1] at h2
      cases h2
    · intro _ i hi
      simp at hi
    · exact fun _ => Or.inl ⟨rfl, rfl⟩
    · intro h
      cases h
    · exact fun _ => rfl
  | cons idx rest ih =>
    intro st hidx
    have hidxr : ∀ i ∈ rest, i < sounds.length := fun i hi => hidx i (by simp [hi])
    have hidx0 : idx < sounds.length := hidx idx (by simp)
    unfold iterOffer
    by_cases h0 : idx < 1
    · rw [if_pos h0]
      rcases ih st hidxr with ⟨k1, k2, k3, k4, k5, k6, k7, k8, k9, k10⟩
      refine ⟨k1, k2, k3, k4, k5, k6, ?_, k8, k9, k10⟩
      intro hf i hi h1i
      rcases List.mem_cons.mp hi with rfl | hi
      · omega
      · exact k7 hf i hi h1i
    · rw [if_neg h0]
      have hsub : (sounds.take (idx + 1)).length = idx + 1 := by
        rw [List.length_take]
        omega
    
      by_cases h1 : st.visited (sounds.take (idx + 1)) = true
      · rw [if_pos h1]
        rcases ih st hidxr with ⟨k1, k2, k3, k4, k5, k6, k7, k8, k9, k10⟩
        refine ⟨k1, k2, k3, k4, k5, k6, ?_, k8, k9, k10⟩
        intro hf i hi h1i
        rcases List.mem_cons.mp hi with rfl | hi
        · exact k3 _ h1
        · exact k7 hf i hi h1i
      · rw [if_neg h1]
        rw [Bool.not_eq_true] at h1
        have hself : (setVisited st (sounds.take (idx + 1))).visited
            (sounds.take (idx + 1)) = true := by
          rw [setVisited_visited]
          exact Or.inl rfl
        by_cases h2 : t.checkPart (sounds.take (idx + 1)) = true
        · rw [if_pos h2]
          have hin : InSet t (sounds.take (idx + 1)) :=
            take_InSet t sounds hch (idx + 1) (by omega) (by omega) h2
          by_cases h3 : stop = true
          · rw [if_pos h3]
            refine ⟨fun q => rfl, fun q => rfl, ?_, by simp, ?_, ?_, ?_, ?_, ?_, ?_⟩
            · intro p hp
              rw [show (setVisited st (sounds.take (idx + 1)), [sounds.take (idx + 1)],
                true).1 = setVisited st (sounds.take (idx + 1)) from rfl, setVisited_visited]
              exact Or.inr hp
            · intro p hp
              rcases List.mem_singleton.mp hp with rfl
              exact ⟨h1, hself, hin⟩
            · intro p hp1 hp2 hp3
              rw [show (setVisited st (sounds.take (idx + 1)), [sounds.take (idx + 1)],
                true).1 = setVisited st (sounds.take (idx + 1)) from rfl,
                setVisited_visited] at hp2
              rcases hp2 with rfl | hp2
              · simp
              · rw [hp1] at hp2
                cases hp2
            · intro hf
              cases hf
            · intro _
              exact Or.inr ⟨sounds.take (idx + 1), rfl, rfl⟩
            · intro _
              simp
            · intro hfalse
              rw [hfalse] at h3
              simp at h3
          · rw [if_neg h3]
            rcases ih (setVisited st (sounds.take (idx + 1))) hidxr with
              ⟨k1, k2, k3, k4, k5, k6, k7, k8, k9, k10⟩
            refine ⟨k1, k2, ?_, ?_, ?_, ?_, ?_, ?_, fun _ => by simp, k10⟩
            · intro p hp
              exact k3 p ((setVisited_visited st _ p).mpr (Or.inr hp))
            · refine List.Nodup.cons ?_ k4
              intro hmem
              rcases k5 _ hmem with ⟨hv, -, -⟩
              rw [hself] at hv
              cases hv
            · intro p hp
              rcases List.mem_cons.mp hp with rfl | hp
              · exact ⟨h1, k3 _ hself, hin⟩
              · rcases k5 p hp with ⟨hv, hv2, hv3⟩
                rcases (setVisited_visited_false st _ p).mp hv with ⟨-, hv0⟩
                exact ⟨hv0, hv2, hv3⟩
            · intro p hp1 hp2 hp3
              by_cases hq : p = sounds.take (idx + 1)
              · rw [hq]
                simp
              · have hv : (setVisited st (sounds.take (idx + 1))).visited p = false :=
                  (setVisited_visited_false st _ p).mpr ⟨hq, hp1⟩
                exact List.mem_cons_of_mem _ (k6 p hv hp2 hp3)
            · intro hf i hi h1i
              rcases List.mem_cons.mp hi with rfl | hi
              · exact k3 _ hself
              · exact k7 hf i hi h1i
            · intro hstop
              cases h3 hstop
        · rw [if_neg h2]
          rcases ih (setVisited st (sounds.take (idx + 1))) hidxr with
            ⟨k1, k2, k3, k4, k5, k6, k7, k8, k9, k10⟩
          refine ⟨k1, k2, ?_, k4, ?_, ?_, ?_, k8, k9, k10⟩
          · intro p hp
            exact k3 p ((setVisited_visited st _ p).mpr (Or.inr hp))
          · intro p hp
            rcases k5 p hp with ⟨hv, hv2, hv3⟩
            rcases (setVisited_visited_false st _ p).mp hv with ⟨-, hv0⟩
            exact ⟨hv0, hv2, hv3⟩
          · intro p hp1 hp2 hp3
            by_cases hq : p = sounds.take (idx + 1)
            · rw [hq] at hp3
              rcases hp3 with ⟨-, -, -, hcp⟩
              exact absurd hcp h2
            · have hv : (setVisited st (sounds.take (idx + 1))).visited p = false :=
                (setVisited_visited_false st _ p).mpr ⟨hq, hp1⟩
              exact k6 p hv hp2 hp3
          · intro hf i hi h1i
            rcases List.mem_cons.mp hi with rfl | hi
            · exact k3 _ hself
            · exact k7 hf i hi h1i

theorem runIter_spec (P : Nat → Nat → List Nat) (hP : PermOK P) (t : Traits) (st : EState)
    (sounds : Path) (stop : Bool) (hch : ChainOK t sounds) :
    IterOut t (bumpCtr st) sounds stop (P st.ctr sounds.length)
      (runIter P t st sounds stop) := by
  apply iterOffer_spec t sounds stop hch
  intro idx hi
  have := (hP st.ctr sounds.length).mem_iff.mp hi
  exact List.mem_range.mp this

theorem runIter_cover (P : Nat → Nat → List Nat) (hP : PermOK P) (t : Traits) (st : EState)
    (sounds : Path) (stop : Bool) (hch : ChainOK t sounds)
    (hni : (runIter P t st sounds stop).2.2 = false) :
    ∀ k, 2 ≤ k → k ≤ sounds.length →
      (runIter P t st sounds stop).1.visited (sounds.take k) = true := by
  intro k hk1 hk2
  have hmem : k - 1 ∈ P st.ctr sounds.length := by
    rw [(hP st.ctr sounds.length).mem_iff]
    rw [List.mem_range]
    omega
  have := (runIter_spec P hP t st sounds stop hch).cover hni (k - 1) hmem (by omega)
  rwa [show k - 1 + 1 = k from by omega] at this

theorem sproutKeys_mem (pairs : List (Sound × Sound)) (path : Path) (s : Sound)
    (h : s ∈ sproutKeys pairs path) :
    (path = [] ∧ ∃ pr ∈ pairs, pr.1 = s) ∨
      (path ≠ [] ∧ (path.getLastD [], s) ∈ pairs) := by
  unfold sproutKeys at h
  cases hlast : path.getLast? with
  | none =>
    rw [hlast] at h
    rw [List.mem_dedup] at h
    rcases List.mem_map.mp h with ⟨pr, hpr, rfl⟩
    exact Or.inl ⟨List.getLast?_eq_none_iff.mp hlast, pr, hpr, rfl⟩
  | some last =>
    rw [hlast] at h
    rw [List.mem_dedup] at h
    rcases List.mem_map.mp h with ⟨pr, hpr, rfl⟩
    rcases List.mem_filter.mp hpr with ⟨hpr2, hfst⟩
    refine Or.inr ⟨?_, ?_⟩
    · intro h0
      rw [h0] at hlast
      cases hlast
    · have h1 : path.getLastD [] = last := by
        rw [List.getLastD_eq_getLast?, hlast]
        rfl
      rw [h1]
      have h2 : pr.1 = last := by simpa using hfst
      rw [← h2]
      exact hpr2

theorem sproutKeys_of_pair (pairs : List (Sound × Sound)) (path : Path) (s : Sound) :
    (path = [] → (∃ pr ∈ pairs, pr.1 = s) → s ∈ sproutKeys pairs path) ∧
    (path ≠ [] → (path.getLastD [], s) ∈ pairs → s ∈ sproutKeys pairs path) := by
  constructor
  · rintro rfl ⟨pr, hpr, rfl⟩
    unfold sproutKeys
    rw [show ([] : Path).getLast? = none from rfl]
    rw [List.mem_dedup]
    exact List.mem_map.mpr ⟨pr, hpr, rfl⟩
  · intro hne hpr
    unfold sproutKeys
    cases hlast : path.getLast? with
    | none => exact absurd (List.getLast?_eq_none_iff.mp hlast) hne
    | some last =>
      rw [List.mem_dedup]
      refine List.mem_map.mpr ⟨(path.getLastD [], s), List.mem_filter.mpr ⟨hpr, ?_⟩, rfl⟩
      have h1 : path.getLastD [] = last := by
        rw [List.getLastD_eq_getLast?, hlast]
        rfl
      simp [List.getLastD_eq_getLast?, hlast]

theorem InSet_validPart_all (t : Traits) (p : Path) (h : InSet t p) :
    ∀ k, 1 ≤ k → k ≤ p.length → t.validPart (p.take k) = true := by
  rcases h with ⟨hlen, hch, hval, hcp⟩
  intro k hk1 hk2
  by_cases hk : 2 ≤ k
  · exact hval k hk hk2
  · have hkeq : k = 1 := by omega
    subst hkeq
    cases hvp : t.validPart (p.take 1) with
    | true => rfl
    | false =>
      have h2 := validPart_take_two_of_take_one t p hvp (by omega)
      have h3 := hval 2 (by omega) (by omega)
      rw [h3] at h2
      cases h2

theorem InSet_chainOK (t : Traits) (p : Path) (h : InSet t p) : ChainOK t p := by
  refine ⟨h.2.1, ?_⟩
  intro k hk1 hk2
  exact InSet_validPart_all t p h k hk1 hk2

theorem InSet_next_sprout (t : Traits) (p : Path) (sounds : Path) (h : InSet t p)
    (htake : p.take sounds.length = sounds) (hlt : sounds.length < p.length) :
    p.getD sounds.length [] ∈ sproutKeys t.pairSet sounds := by
  rcases h with ⟨hlen, hch, -, -⟩
  by_cases hne : sounds = []
  · subst hne
    refine (sproutKeys_of_pair t.pairSet [] (p.getD 0 [])).1 rfl ?_
    refine ⟨(p.getD 0 [], p.getD 1 []), ?_, rfl⟩
    exact chain'_getD p hch 0 (by simpa using hlen)
  · have hn : 0 < sounds.length := List.length_pos.mpr hne
    refine (sproutKeys_of_pair t.pairSet sounds (p.getD sounds.length [])).2 hne ?_
    have h1 : sounds.getLastD [] = p.getD (sounds.length - 1) [] := by
      have h0 := take_getD p sounds.length (sounds.length - 1) (by omega)
      rw [htake] at h0
      rw [getLastD_eq_getD]
      exact h0
    rw [h1]
    have h2 := chain'_getD p hch (sounds.length - 1) (by omega)
    rwa [show sounds.length - 1 + 1 = sounds.length from by omega] at h2

theorem chainOK_extend (t : Traits) (sounds : Path) (s : Sound) (hch : ChainOK t sounds)
    (hk : s ∈ sproutKeys t.pairSet sounds) (hv : t.validPart (sounds ++ [s]) = true) :
    ChainOK t (sounds ++ [s]) := by
  constructor
  · rw [List.chain'_append]
    refine ⟨hch.1, List.chain'_singleton s, ?_⟩
    intro x hx y hy
    rcases sproutKeys_mem t.pairSet sounds s hk with ⟨rfl, -⟩ | ⟨hne, hpr⟩
    · simp at hx
    · have hx2 : x = sounds.getLastD [] := by
        rw [List.getLastD_eq_getLast?]
        rw [Option.mem_def] at hx
        rw [hx]
        rfl
      have hy2 : s = y := by
        simpa using hy
      rw [hx2, ← hy2]
      exact hpr
  · intro k hk1 hk2
    rw [List.length_append, List.length_singleton] at hk2
    by_cases hkle : k ≤ sounds.length
    · rw [List.take_append_of_le_length hkle]
      exact hch.2 k hk1 hkle
    · have hkeq : k = sounds.length + 1 := by omega
      rw [hkeq, List.take_of_length_le (by simp)]
      exact hv

theorem SINV_delKey (t : Traits) (st : EState) (p : Path) (s : Sound) (h : SINV t st) :
    SINV t (delKey st p s) := by
  intro q x hq hx
  rw [delKey_sprouted] at hq
  by_cases hqp : q = p
  · subst hqp
    rw [delKey_keys_self] at hx
    exact h q x hq (List.mem_of_mem_erase hx)
  · rw [delKey_keys_ne st p s q hqp] at hx
    exact h q x hq hx

theorem SINV_sproutAt (t : Traits) (st : EState) (p : Path) (h : SINV t st) :
    SINV t (sproutAt t.pairSet st p) := by
  intro q x hq hx
  by_cases hqp : q = p
  · subst hqp
    rw [sproutAt_keys_self] at hx
    exact hx
  · rw [sproutAt_keys_ne t.pairSet st p q hqp] at hx
    rw [sproutAt_sprouted_ne t.pairSet st p q hqp] at hq
    exact h q x hq hx

theorem INVg_sproutAt (t : Traits) (st : EState) (p : Path) (h : INVg t st) :
    INVg t (sproutAt t.pairSet st p) := by
  intro q hq hv
  rw [show (sproutAt t.pairSet st p).visited q = st.visited q from rfl] at hv
  have hr := h q hq hv
  intro j hj hspr
  by_cases hqp : q.take j = p
  · have hlen : (q.take j).length = j := by
      rw [List.length_take]
      omega
    rw [hqp, sproutAt_keys_self, ← hqp]
    have hnext := InSet_next_sprout t q (q.take j) hq (by rw [hlen]) (by rw [hlen]; exact hj)
    rwa [hlen] at hnext
  · rw [sproutAt_keys_ne t.pairSet st p (q.take j) hqp]
    rw [sproutAt_sprouted_ne t.pairSet st p (q.take j) hqp] at hspr
    exact hr j hj hspr

theorem INVg_delKey (t : Traits) (st : EState) (sounds : Path) (s : Sound) (h : INVg t st)
    (hvis : ∀ p, InSet t p → p.take (sounds.length + 1) = sounds ++ [s] →
      st.visited p = true) :
    INVg t (delKey st sounds s) := by
  intro q hq hv
  rw [delKey_visited] at hv
  have hr := h q hq hv
  intro j hj hspr
  rw [delKey_sprouted] at hspr
  have hmem := hr j hj hspr
  by_cases hqp : q.take j = sounds
  · have hjlen : j = sounds.length := by
      have hlen : (q.take j).length = j := by
        rw [List.length_take]
        omega
      rw [hqp] at hlen
      omega
    rw [hqp, delKey_keys_self]
    by_cases hgs : q.getD j [] = s
    · exfalso
      have htk : q.take (j + 1) = sounds ++ [s] := by
        rw [take_succ_getD q j (by omega), hqp, hgs]
      have hv2 := hvis q hq (hjlen ▸ htk)
      rw [hv2] at hv
      cases hv
    · rw [hqp] at hmem
      exact (List.mem_erase_of_ne hgs).mpr hmem
  · rw [delKey_keys_ne st sounds s (q.take j) hqp]
    exact hmem

theorem INVg_iter_out (t : Traits) (st st' : EState)
    (hkeys : ∀ q, st'.keys q = st.keys q) (hspr : ∀ q, st'.sprouted q = st.sprouted q)
    (hmono : ∀ p, st.visited p = true → st'.visited p = true)
    (h : INVg t st) : INVg t st' := by
  intro q hq hv
  have hv0 : st.visited q = false := by
    cases h0 : st.visited q with
    | false => rfl
    | true =>
      rw [hmono q h0] at hv
      cases hv
  have hr := h q hq hv0
  intro j hj hs
  rw [hkeys]
  rw [hspr] at hs
  exact hr j hj hs

theorem SINV_of_eq (t : Traits) (st st' : EState)
    (hk : ∀ q, st'.keys q = st.keys q) (hs : ∀ q, st'.sprouted q = st.sprouted q)
    (h : SINV t st) : SINV t st' := by
  intro q x hq hx
  rw [hs] at hq
  rw [hk] at hx
  exact h q x hq hx

theorem vis_false_of_mono {st st' : EState}
    (h : ∀ p, st.visited p = true → st'.visited p = true) (p : Path)
    (hf : st'.visited p = false) : st.visited p = false := by
  cases h0 : st.visited p with
  | false => rfl
  | true =>
    rw [h p h0] at hf
    cases hf

theorem take_prefix_of_ext (q sounds : Path) (s : Sound)
    (h : q.take (sounds.length + 1) = sounds ++ [s]) : q.take sounds.length = sounds := by
  have h0 : (q.take (sounds.length + 1)).take sounds.length = q.take sounds.length := by
    rw [List.take_take, min_eq_left (by omega)]
  rw [← h0, h, List.take_append_of_le_length (by omega), List.take_length]

theorem eq_of_take_ext (p sounds : Path) (s : Sound)
    (htake : p.take sounds.length = sounds) (hlt : sounds.length < p.length)
    (hgd : p.getD sounds.length [] = s) :
    p.take (sounds.length + 1) = sounds ++ [s] := by
  rw [take_succ_getD p sounds.length hlt, htake, hgd]

theorem eq_path_of_short (p path : Path) (htk : p.take path.length = path)
    (hlen : p.length ≤ path.length) : p = path := by
  rw [← htk, List.take_of_length_le hlen]

/-- Conclusions established for one (possibly interrupted) run of
`state.walk` below the node at `sounds`. -/
structure WalkOut (t : Traits) (st : EState) (sounds : Path) (stop : Bool)
    (res : EState × List Path × Bool) : Prop where
  mono : ∀ p, st.visited p = true → res.1.visited p = true
  sinv : SINV t res.1
  invg : INVg t res.1
  nodup : res.2.1.Nodup
  emits : ∀ p ∈ res.2.1, st.visited p = false ∧ res.1.visited p = true ∧ InSet t p
  flips : ∀ p, st.visited p = false → res.1.visited p = true → InSet t p → p ∈ res.2.1
  compl : res.2.2 = false → ∀ p, InSet t p → st.visited p = false →
    p.take sounds.length = sounds → sounds.length < p.length → res.1.visited p = true
  intr_ne : res.2.2 = true → res.2.1 ≠ []
  frame : ∀ q, q.take sounds.length ≠ sounds →
    res.1.keys q = st.keys q ∧ res.1.sprouted q = st.sprouted q
  single : stop = true → (res.2.2 = false ∧ res.2.1 = []) ∨
    ∃ w, res.2.2 = true ∧ res.2.1 = [w]

theorem walkStep_nil (t : Traits) (P : Nat → Nat → List Nat)
    (deeper : EState → Path → Bool → EState × List Path × Bool)
    (st : EState) (sounds : Path) (stop : Bool) :
    walkStep t P deeper st sounds stop [] = (st, [], false) := rfl

theorem walkStep_cons_invalid (t : Traits) (P : Nat → Nat → List Nat)
    (deeper : EState → Path → Bool → EState × List Path × Bool)
    (st : EState) (sounds : Path) (stop : Bool) (sound : Sound) (rest : List Sound)
    (hvp : ¬ t.validPart (sounds ++ [sound]) = true) :
    walkStep t P deeper st sounds stop (sound :: rest) =
      walkStep t P deeper (delKey st sounds sound) sounds stop rest := by
  conv_lhs => rw [walkStep]
  rw [if_neg hvp]

theorem walkStep_cons_intr (t : Traits) (P : Nat → Nat → List Nat)
    (deeper : EState → Path → Bool → EState × List Path × Bool)
    (st : EState) (sounds : Path) (stop : Bool) (sound : Sound) (rest : List Sound)
    (st1 : EState) (em1 : List Path)
    (hvp : t.validPart (sounds ++ [sound]) = true)
    (hD : deeper st (sounds ++ [sound]) stop = (st1, em1, true)) :
    walkStep t P deeper st sounds stop (sound :: rest) = (st1, em1, true) := by
  conv_lhs => rw [walkStep]
  rw [if_pos hvp, hD]

theorem walkStep_cons_visited (t : Traits) (P : Nat → Nat → List Nat)
    (deeper : EState → Path → Bool → EState × List Path × Bool)
    (st : EState) (sounds : Path) (stop : Bool) (sound : Sound) (rest : List Sound)
    (st1 : EState) (em1 : List Path)
    (hvp : t.validPart (sounds ++ [sound]) = true)
    (hD : deeper st (sounds ++ [sound]) stop = (st1, em1, false))
    (hv : st1.visited (sounds ++ [sound]) = true) :
    walkStep t P deeper st sounds stop (sound :: rest) =
      ((walkStep t P deeper (delKey st1 sounds sound) sounds stop rest).1,
        em1 ++ (walkStep t P deeper (delKey st1 sounds sound) sounds stop rest).2.1,
        (walkStep t P deeper (delKey st1 sounds sound) sounds stop rest).2.2) := by
  conv_lhs => rw [walkStep]
  rw [if_pos hvp, hD]
  dsimp only
  rw [if_pos hv]

theorem walkStep_cons_offer_intr (t : Traits) (P : Nat → Nat → List Nat)
    (deeper : EState → Path → Bool → EState × List Path × Bool)
    (st : EState) (sounds : Path) (stop : Bool) (sound : Sound) (rest : List Sound)
    (st1 : EState) (em1 : List Path) (st2 : EState) (em2 : List Path)
    (hvp : t.validPart (sounds ++ [sound]) = true)
    (hD : deeper st (sounds ++ [sound]) stop = (st1, em1, false))
    (hv : ¬ st1.visited (sounds ++ [sound]) = true)
    (hR : runIter P t st1 (sounds ++ [sound]) stop = (st2, em2, true)) :
    walkStep t P deeper st sounds stop (sound :: rest) = (st2, em1 ++ em2, true) := by
  conv_lhs => rw [walkStep]
  rw [if_pos hvp, hD]
  dsimp only
  rw [if_neg hv, hR]

theorem walkStep_cons_offer_go (t : Traits) (P : Nat → Nat → List Nat)
    (deeper : EState → Path → Bool → EState × List Path × Bool)
    (st : EState) (sounds : Path) (stop : Bool) (sound : Sound) (rest : List Sound)
    (st1 : EState) (em1 : List Path) (st2 : EState) (em2 : List Path)
    (hvp : t.validPart (sounds ++ [sound]) = true)
    (hD : deeper st (sounds ++ [sound]) stop = (st1, em1, false))
    (hv : ¬ st1.visited (sounds ++ [sound]) = true)
    (hR : runIter P t st1 (sounds ++ [sound]) stop = (st2, em2, false)) :
    walkStep t P deeper st sounds stop (sound :: rest) =
      ((walkStep t P deeper (delKey st2 sounds sound) sounds stop rest).1,
        em1 ++ em2 ++ (walkStep t P deeper (delKey st2 sounds sound) sounds stop rest).2.1,
        (walkStep t P deeper (delKey st2 sounds sound) sounds stop rest).2.2) := by
  conv_lhs => rw [walkStep]
  rw [if_pos hvp, hD]
  dsimp only
  rw [if_neg hv, hR]

theorem disjoint_of_vis (stA : EState) (em em' : List Path)
    (h1 : ∀ p ∈ em, stA.visited p = true) (h2 : ∀ p ∈ em', stA.visited p = false) :
    em.Disjoint em' := by
  intro p hp hp'
  have a := h1 p hp
  have b := h2 p hp'
  rw [a] at b
  cases b

theorem InSet_length_le (t : Traits) (p : Path) (h : InSet t p) : p.length ≤ lenCap t := by
  have hv := h.2.2.1 p.length h.1 le_rfl
  rw [List.take_length] at hv
  exact validPart_length_le t p hv

theorem walkStep_spec (t : Traits) (P : Nat → Nat → List Nat) (hP : PermOK P) (sounds : Path)
    (deeper : EState → Path → Bool → EState × List Path × Bool)
    (hd : ∀ st' sound stop', ChainOK t (sounds ++ [sound]) → SINV t st' → INVg t st' →
      WalkOut t st' (sounds ++ [sound]) stop' (deeper st' (sounds ++ [sound]) stop'))
    (hch : ChainOK t sounds) :
    ∀ (pending : List Sound) (st : EState) (stop : Bool),
      SINV t st → INVg t st →
      (∀ s ∈ pending, s ∈ sproutKeys t.pairSet sounds) →
      (∀ p, InSet t p → st.visited p = false → p.take sounds.length = sounds →
        sounds.length < p.length → p.getD sounds.length [] ∈ pending) →
      WalkOut t st sounds stop (walkStep t P deeper st sounds stop pending) := by
  intro pending
  induction pending with
  | nil =>
    intro st stop hS hI hpend hreach
    rw [walkStep_nil]
    refine ⟨fun p h => h, hS, hI, List.nodup_nil, ?_, ?_, ?_, ?_, ?_, ?_⟩
    · intro p hp
      cases hp
    · intro p h0 h1 _
      have h1' : st.visited p = true := h1
      rw [h0] at h1'
      cases h1'
    · intro _ p hp h0 htk hlt
      exact absurd (hreach p hp h0 htk hlt) (List.not_mem_nil _)
    · intro h
      have h' : false = true := h
      cases h'
    · intro q _
      exact ⟨rfl, rfl⟩
    · intro _
      exact Or.inl ⟨rfl, rfl⟩
  | cons sound rest ih =>
    intro st stop hS hI hpend hreach
    have hlen1 : (sounds ++ [sound]).length = sounds.length + 1 := by simp
    have hkey : sound ∈ sproutKeys t.pairSet sounds := hpend sound (List.mem_cons_self _ _)
    have hpend' : ∀ s ∈ rest, s ∈ sproutKeys t.pairSet sounds :=
      fun s hs => hpend s (List.mem_cons_of_mem _ hs)
    by_cases hvp : t.validPart (sounds ++ [sound]) = true
    · -- valid extension: recurse deeper, then offer, then delete
      have hchx : ChainOK t (sounds ++ [sound]) := chainOK_extend t sounds sound hch hkey hvp
      rcases hD2 : deeper st (sounds ++ [sound]) stop with ⟨st1, em1, intr1⟩
      have D := hd st sound stop hchx hS hI
      rw [hD2] at D
      cases intr1 with
      | true =>
        -- the deeper walk was interrupted: propagate
        rw [walkStep_cons_intr t P deeper st sounds stop sound rest st1 em1 hvp hD2]
        refine ⟨D.mono, D.sinv, D.invg, D.nodup, D.emits, D.flips, ?_, D.intr_ne, ?_, D.single⟩
        · intro h
          have h' : true = false := h
          cases h'
        · intro q hq
          refine D.frame q ?_
          rw [hlen1]
          intro hc
          exact hq (take_prefix_of_ext q sounds sound hc)
      | false =>
        by_cases hv : st1.visited (sounds ++ [sound]) = true
        · -- child already visited: skip the offer
          have hvisAll : ∀ p, InSet t p → p.take (sounds.length + 1) = sounds ++ [sound] →
              st1.visited p = true := by
            intro p hp htk
            by_cases hlenp : p.length ≤ sounds.length + 1
            · have hpe : p = sounds ++ [sound] := by
                apply eq_path_of_short p (sounds ++ [sound])
                · rw [hlen1]
                  exact htk
                · rw [hlen1]
                  exact hlenp
              rw [hpe]
              exact hv
            · cases hsv : st.visited p with
              | true => exact D.mono p hsv
              | false =>
                apply D.compl rfl p hp hsv
                · rw [hlen1]
                  exact htk
                · rw [hlen1]
                  omega
          have hS' : SINV t (delKey st1 sounds sound) := SINV_delKey t st1 sounds sound D.sinv
          have hI' : INVg t (delKey st1 sounds sound) :=
            INVg_delKey t st1 sounds sound D.invg hvisAll
          have hreach' : ∀ p, InSet t p → (delKey st1 sounds sound).visited p = false →
              p.take sounds.length = sounds → sounds.length < p.length →
              p.getD sounds.length [] ∈ rest := by
            intro p hp hv2 htk hlt
            have hv2' : st1.visited p = false := hv2
            have hv0 : st.visited p = false := vis_false_of_mono D.mono p hv2'
            rcases List.mem_cons.mp (hreach p hp hv0 htk hlt) with heq | hm2
            · exfalso
              have htk2 := eq_of_take_ext p sounds sound htk hlt heq
              have hc := hvisAll p hp htk2
              rw [hv2'] at hc
              cases hc
            · exact hm2
          have W := ih (delKey st1 sounds sound) stop hS' hI' hpend' hreach'
          rcases hr : walkStep t P deeper (delKey st1 sounds sound) sounds stop rest
            with ⟨st3, em3, i3⟩
          rw [hr] at W
          rw [walkStep_cons_visited t P deeper st sounds stop sound rest st1 em1 hvp hD2 hv, hr]
          refine ⟨?_, W.sinv, W.invg, ?_, ?_, ?_, ?_, ?_, ?_, ?_⟩
          · intro p h
            exact W.mono p (D.mono p h)
          · -- nodup of em1 ++ em3
            refine D.nodup.append W.nodup ?_
            exact disjoint_of_vis st1 em1 em3
              (fun p hp => (D.emits p hp).2.1) (fun p hp => (W.emits p hp).1)
          · intro p hp
            rcases List.mem_append.mp hp with hp1 | hp3
            · obtain ⟨ha, hb, hc⟩ := D.emits p hp1
              exact ⟨ha, W.mono p hb, hc⟩
            · obtain ⟨ha, hb, hc⟩ := W.emits p hp3
              exact ⟨vis_false_of_mono D.mono p ha, hb, hc⟩
          · intro p h0 h3 hins
            cases h1 : st1.visited p with
            | true => exact List.mem_append.mpr (Or.inl (D.flips p h0 h1 hins))
            | false => exact List.mem_append.mpr (Or.inr (W.flips p h1 h3 hins))
          · intro hi3 p hp h0 htk hlt
            cases h1 : st1.visited p with
            | true => exact W.mono p h1
            | false => exact W.compl hi3 p hp h1 htk hlt
          · intro hi3 hc
            exact W.intr_ne hi3 (List.append_eq_nil.mp hc).2
          · intro q hq
            have hq2 : q ≠ sounds := by
              intro h
              apply hq
              rw [h, List.take_length]
            have hq3 : q.take (sounds ++ [sound]).length ≠ sounds ++ [sound] := by
              rw [hlen1]
              intro hc
              exact hq (take_prefix_of_ext q sounds sound hc)
            obtain ⟨wk, ws⟩ := W.frame q hq
            obtain ⟨dk, ds⟩ := D.frame q hq3
            constructor
            · have h1 : st3.keys q = (delKey st1 sounds sound).keys q := wk
              rw [delKey_keys_ne st1 sounds sound q hq2] at h1
              have h3 : st1.keys q = st.keys q := dk
              rw [h1, h3]
            · have h1 : st3.sprouted q = st1.sprouted q := ws
              have h3 : st1.sprouted q = st.sprouted q := ds
              rw [h1, h3]
          · intro hstop
            rcases D.single hstop with ⟨-, he1⟩ | ⟨w, hw, -⟩
            · have he1' : em1 = [] := he1
              subst he1'
              simpa using W.single hstop
            · have hw' : false = true := hw
              cases hw'
        · -- unvisited child: offer it to the iterator
          have R := runIter_spec P hP t st1 (sounds ++ [sound]) stop hchx
          rcases hR : runIter P t st1 (sounds ++ [sound]) stop with ⟨st2, em2, intr2⟩
          rw [hR] at R
          cases intr2 with
          | true =>
            -- the offer emitted a word and interrupted
            rw [walkStep_cons_offer_intr t P deeper st sounds stop sound rest st1 em1 st2 em2
              hvp hD2 hv hR]
            refine ⟨?_, ?_, ?_, ?_, ?_, ?_, ?_, ?_, ?_, ?_⟩
            · intro p h
              exact R.mono p (D.mono p h)
            · exact SINV_of_eq t st1 st2 R.keys_eq R.sprouted_eq D.sinv
            · exact INVg_iter_out t st1 st2 R.keys_eq R.sprouted_eq R.mono D.invg
            · refine D.nodup.append R.nodup ?_
              exact disjoint_of_vis st1 em1 em2
                (fun p hp => (D.emits p hp).2.1) (fun p hp => (R.emits p hp).1)
            · intro p hp
              rcases List.mem_append.mp hp with hp1 | hp2
              · obtain ⟨ha, hb, hc⟩ := D.emits p hp1
                exact ⟨ha, R.mono p hb, hc⟩
              · obtain ⟨ha, hb, hc⟩ := R.emits p hp2
                exact ⟨vis_false_of_mono D.mono p ha, hb, hc⟩
            · intro p h0 h2 hins
              cases h1 : st1.visited p with
              | true => exact List.mem_append.mpr (Or.inl (D.flips p h0 h1 hins))
              | false => exact List.mem_append.mpr (Or.inr (R.flips p h1 h2 hins))
            · intro h
              have h' : true = false := h
              cases h'
            · intro _ hc
              exact R.intr_ne rfl (List.append_eq_nil.mp hc).2
            · intro q hq
              have hq3 : q.take (sounds ++ [sound]).length ≠ sounds ++ [sound] := by
                rw [hlen1]
                intro hc
                exact hq (take_prefix_of_ext q sounds sound hc)
              obtain ⟨dk, ds⟩ := D.frame q hq3
              constructor
              · have h2 : st2.keys q = st1.keys q := R.keys_eq q
                have h3 : st1.keys q = st.keys q := dk
                rw [h2, h3]
              · have h2 : st2.sprouted q = st1.sprouted q := R.sprouted_eq q
                have h3 : st1.sprouted q = st.sprouted q := ds
                rw [h2, h3]
            · intro hstop
              rcases D.single hstop with ⟨-, he1⟩ | ⟨w, hw, -⟩
              · have he1' : em1 = [] := he1
                rcases R.single hstop with ⟨hw2, -⟩ | ⟨w, -, he2⟩
                · have hw2' : true = false := hw2
                  cases hw2'
                · have he2' : em2 = [w] := he2
                  refine Or.inr ⟨w, rfl, ?_⟩
                  rw [he1', he2']
                  rfl
              · have hw' : false = true := hw
                cases hw'
          | false =>
            -- clean offer: delete the key and continue with the siblings
            have hmono12 : ∀ p, st.visited p = true → st2.visited p = true :=
              fun p h => R.mono p (D.mono p h)
            have hvisAll : ∀ p, InSet t p → p.take (sounds.length + 1) = sounds ++ [sound] →
                st2.visited p = true := by
              intro p hp htk
              by_cases hlenp : p.length ≤ sounds.length + 1
              · have hpe : p = sounds ++ [sound] := by
                  apply eq_path_of_short p (sounds ++ [sound])
                  · rw [hlen1]
                    exact htk
                  · rw [hlen1]
                    exact hlenp
                have h2p : 2 ≤ p.length := hp.1
                have hcov := runIter_cover P hP t st1 (sounds ++ [sound]) stop hchx
                  (by rw [hR]) (sounds.length + 1)
                  (by rw [hpe, hlen1] at h2p; omega) (le_of_eq hlen1.symm)
                rw [hR, List.take_of_length_le (le_of_eq hlen1)] at hcov
                rw [hpe]
                exact hcov
              · cases hsv1 : st1.visited p with
                | true => exact R.mono p hsv1
                | false =>
                  exfalso
                  have hsv : st.visited p = false := vis_false_of_mono D.mono p hsv1
                  have hc := D.compl rfl p hp hsv (by rw [hlen1]; exact htk)
                    (by rw [hlen1]; omega)
                  rw [hsv1] at hc
                  cases hc
            have hS2 : SINV t st2 := SINV_of_eq t st1 st2 R.keys_eq R.sprouted_eq D.sinv
            have hI2 : INVg t st2 :=
              INVg_iter_out t st1 st2 R.keys_eq R.sprouted_eq R.mono D.invg
            have hS' : SINV t (delKey st2 sounds sound) := SINV_delKey t st2 sounds sound hS2
            have hI' : INVg t (delKey st2 sounds sound) :=
              INVg_delKey t st2 sounds sound hI2 hvisAll
            have hreach' : ∀ p, InSet t p → (delKey st2 sounds sound).visited p = false →
                p.take sounds.length = sounds → sounds.length < p.length →
                p.getD sounds.length [] ∈ rest := by
              intro p hp hv2 htk hlt
              have hv2' : st2.visited p = false := hv2
              have hv0 : st.visited p = false := vis_false_of_mono hmono12 p hv2'
              rcases List.mem_cons.mp (hreach p hp hv0 htk hlt) with heq | hm2
              · exfalso
                have htk2 := eq_of_take_ext p sounds sound htk hlt heq
                have hc := hvisAll p hp htk2
                rw [hv2'] at hc
                cases hc
              · exact hm2
            have W := ih (delKey st2 sounds sound) stop hS' hI' hpend' hreach'
            rcases hr : walkStep t P deeper (delKey st2 sounds sound) sounds stop rest
              with ⟨st3, em3, i3⟩
            rw [hr] at W
            rw [walkStep_cons_offer_go t P deeper st sounds stop sound rest st1 em1 st2 em2
              hvp hD2 hv hR, hr]
            refine ⟨?_, W.sinv, W.invg, ?_, ?_, ?_, ?_, ?_, ?_, ?_⟩
            · intro p h
              exact W.mono p (hmono12 p h)
            · -- nodup of em1 ++ (em2 ++ em3)
              have d12 : em1.Disjoint em2 := disjoint_of_vis st1 em1 em2
                (fun p hp => (D.emits p hp).2.1) (fun p hp => (R.emits p hp).1)
              have d13 : em1.Disjoint em3 := disjoint_of_vis st2 em1 em3
                (fun p hp => R.mono p (D.emits p hp).2.1) (fun p hp => (W.emits p hp).1)
              have d23 : em2.Disjoint em3 := disjoint_of_vis st2 em2 em3
                (fun p hp => (R.emits p hp).2.1) (fun p hp => (W.emits p hp).1)
              exact (D.nodup.append R.nodup d12).append W.nodup
                (List.disjoint_append_left.mpr ⟨d13, d23⟩)
            · intro p hp
              rcases List.mem_append.mp hp with hp12 | hp3
              · rcases List.mem_append.mp hp12 with hp1 | hp2
                · obtain ⟨ha, hb, hc⟩ := D.emits p hp1
                  exact ⟨ha, W.mono p (R.mono p hb), hc⟩
                · obtain ⟨ha, hb, hc⟩ := R.emits p hp2
                  exact ⟨vis_false_of_mono D.mono p ha, W.mono p hb, hc⟩
              · obtain ⟨ha, hb, hc⟩ := W.emits p hp3
                exact ⟨vis_false_of_mono hmono12 p ha, hb, hc⟩
            · intro p h0 h3 hins
              cases h1 : st1.visited p with
              | true =>
                exact List.mem_append.mpr
                  (Or.inl (List.mem_append.mpr (Or.inl (D.flips p h0 h1 hins))))
              | false =>
                cases h2 : st2.visited p with
                | true =>
                  exact List.mem_append.mpr
                    (Or.inl (List.mem_append.mpr (Or.inr (R.flips p h1 h2 hins))))
                | false =>
                  exact List.mem_append.mpr (Or.inr (W.flips p h2 h3 hins))
            · intro hi3 p hp h0 htk hlt
              cases h2 : st2.visited p with
              | true => exact W.mono p h2
              | false => exact W.compl hi3 p hp h2 htk hlt
            · intro hi3 hc
              exact W.intr_ne hi3 (List.append_eq_nil.mp hc).2
            · intro q hq
              have hq2 : q ≠ sounds := by
                intro h
                apply hq
                rw [h, List.take_length]
              have hq3 : q.take (sounds ++ [sound]).length ≠ sounds ++ [sound] := by
                rw [hlen1]
                intro hc
                exact hq (take_prefix_of_ext q sounds sound hc)
              obtain ⟨wk, ws⟩ := W.frame q hq
              obtain ⟨dk, ds⟩ := D.frame q hq3
              constructor
              · have h1 : st3.keys q = (delKey st2 sounds sound).keys q := wk
                rw [delKey_keys_ne st2 sounds sound q hq2] at h1
                have h2 : st2.keys q = st1.keys q := R.keys_eq q
                have h3 : st1.keys q = st.keys q := dk
                rw [h1, h2, h3]
              · have h1 : st3.sprouted q = st2.sprouted q := ws
                have h2 : st2.sprouted q = st1.sprouted q := R.sprouted_eq q
                have h3 : st1.sprouted q = st.sprouted q := ds
                rw [h1, h2, h3]
            · intro hstop
              rcases D.single hstop with ⟨-, he1⟩ | ⟨w, hw, -⟩
              · have he1' : em1 = [] := he1
                rcases R.single hstop with ⟨-, he2⟩ | ⟨w, hw2, -⟩
                · have he2' : em2 = [] := he2
                  subst he1'
                  subst he2'
                  simpa using W.single hstop
                · have hw2' : false = true := hw2
                  cases hw2'
              · have hw' : false = true := hw
                cases hw'
    · -- invalid extension: delete the key and continue
      have hvis0 : ∀ p, InSet t p → p.take (sounds.length + 1) = sounds ++ [sound] →
          st.visited p = true := by
        intro p hp htk
        exfalso
        apply hvp
        have hlenp : sounds.length + 1 ≤ p.length := by
          have hlc := congrArg List.length htk
          rw [List.length_take, hlen1] at hlc
          omega
        have hval := InSet_validPart_all t p hp (sounds.length + 1) (by omega) hlenp
        rw [htk] at hval
        exact hval
      have hS' : SINV t (delKey st sounds sound) := SINV_delKey t st sounds sound hS
      have hI' : INVg t (delKey st sounds sound) := INVg_delKey t st sounds sound hI hvis0
      have hreach' : ∀ p, InSet t p → (delKey st sounds sound).visited p = false →
          p.take sounds.length = sounds → sounds.length < p.length →
          p.getD sounds.length [] ∈ rest := by
        intro p hp hv2 htk hlt
        have hv2' : st.visited p = false := hv2
        rcases List.mem_cons.mp (hreach p hp hv2' htk hlt) with heq | hm2
        · exfalso
          have htk2 := eq_of_take_ext p sounds sound htk hlt heq
          have hc := hvis0 p hp htk2
          rw [hv2'] at hc
          cases hc
        · exact hm2
      have W := ih (delKey st sounds sound) stop hS' hI' hpend' hreach'
      rcases hr : walkStep t P deeper (delKey st sounds sound) sounds stop rest
        with ⟨st3, em3, i3⟩
      rw [hr] at W
      rw [walkStep_cons_invalid t P deeper st sounds stop sound rest hvp, hr]
      refine ⟨W.mono, W.sinv, W.invg, W.nodup, W.emits, W.flips, W.compl, W.intr_ne, ?_,
        W.single⟩
      intro q hq
      have hq2 : q ≠ sounds := by
        intro h
        apply hq
        rw [h, List.take_length]
      obtain ⟨wk, ws⟩ := W.frame q hq
      constructor
      · have h1 : st3.keys q = (delKey st sounds sound).keys q := wk
        rw [delKey_keys_ne st sounds sound q hq2] at h1
        exact h1
      · exact ws

theorem walkD_succ (t : Traits) (O : Nat → List Sound → List Sound)
    (P : Nat → Nat → List Nat) (fuel : Nat) (st : EState) (sounds : Path) (stop : Bool) :
    walkD t O P (fuel + 1) st sounds stop =
      walkStep t P (walkD t O P fuel)
        (bumpCtr (if st.sprouted sounds then st else sproutAt t.pairSet st sounds)) sounds stop
        (O (if st.sprouted sounds then st else sproutAt t.pairSet st sounds).ctr
          ((if st.sprouted sounds then st else sproutAt t.pairSet st sounds).keys sounds)) :=
  rfl

theorem walkD_spec (t : Traits) (O : Nat → List Sound → List Sound)
    (P : Nat → Nat → List Nat) (hO : OracleOK O) (hP : PermOK P) :
    ∀ (fuel : Nat) (sounds : Path) (st : EState) (stop : Bool),
      ChainOK t sounds → SINV t st → INVg t st → lenCap t ≤ fuel + sounds.length →
      WalkOut t st sounds stop (walkD t O P fuel st sounds stop) := by
  intro fuel
  induction fuel with
  | zero =>
    intro sounds st stop hch hS hI hfuel
    show WalkOut t st sounds stop (st, [], false)
    refine ⟨fun p h => h, hS, hI, List.nodup_nil, ?_, ?_, ?_, ?_, ?_, ?_⟩
    · intro p hp
      cases hp
    · intro p h0 h1 _
      rw [h0] at h1
      cases h1
    · intro _ p hp h0 htk hlt
      exfalso
      have hle := InSet_length_le t p hp
      omega
    · intro h
      cases h
    · intro q _
      exact ⟨rfl, rfl⟩
    · intro _
      exact Or.inl ⟨rfl, rfl⟩
  | succ fuel ihf =>
    intro sounds st stop hch hS hI hfuel
    have hd : ∀ st' sound stop', ChainOK t (sounds ++ [sound]) → SINV t st' → INVg t st' →
        WalkOut t st' (sounds ++ [sound]) stop'
          (walkD t O P fuel st' (sounds ++ [sound]) stop') := by
      intro st' sound stop' hch' hS' hI'
      refine ihf (sounds ++ [sound]) st' stop' hch' hS' hI' ?_
      rw [List.length_append, List.length_singleton]
      omega
    rw [walkD_succ]
    cases hspr : st.sprouted sounds with
    | true =>
      rw [if_pos rfl]
      have hpend : ∀ s ∈ O (bumpCtr st).ctr.pred (st.keys sounds),
          s ∈ sproutKeys t.pairSet sounds := by
        intro s hs
        have hs2 : s ∈ st.keys sounds := (hO _ _).mem_iff.mp hs
        exact hS sounds s hspr hs2
      have hreach : ∀ p, InSet t p → (bumpCtr st).visited p = false →
          p.take sounds.length = sounds → sounds.length < p.length →
          p.getD sounds.length [] ∈ O (bumpCtr st).ctr.pred (st.keys sounds) := by
        intro p hp hv htk hlt
        have hv' : st.visited p = false := hv
        have hr := hI p hp hv' sounds.length hlt (by rw [htk]; exact hspr)
        rw [htk] at hr
        exact (hO _ _).mem_iff.mpr hr
      have Wm := walkStep_spec t P hP sounds (walkD t O P fuel) hd hch
        (O st.ctr (st.keys sounds)) (bumpCtr st) stop hS hI hpend hreach
      refine ⟨Wm.mono, Wm.sinv, Wm.invg, Wm.nodup, Wm.emits, Wm.flips, Wm.compl,
        Wm.intr_ne, ?_, Wm.single⟩
      intro q hq
      obtain ⟨wk, ws⟩ := Wm.frame q hq
      rw [wk, ws]
      exact ⟨rfl, rfl⟩
    | false =>
      rw [if_neg Bool.false_ne_true]
      have hpend : ∀ s ∈ O (sproutAt t.pairSet st sounds).ctr
          ((sproutAt t.pairSet st sounds).keys sounds), s ∈ sproutKeys t.pairSet sounds := by
        intro s hs
        have hs2 : s ∈ (sproutAt t.pairSet st sounds).keys sounds := (hO _ _).mem_iff.mp hs
        rw [sproutAt_keys_self] at hs2
        exact hs2
      have hreach : ∀ p, InSet t p →
          (bumpCtr (sproutAt t.pairSet st sounds)).visited p = false →
          p.take sounds.length = sounds → sounds.length < p.length →
          p.getD sounds.length [] ∈ O (sproutAt t.pairSet st sounds).ctr
            ((sproutAt t.pairSet st sounds).keys sounds) := by
        intro p hp _ htk hlt
        have hnext := InSet_next_sprout t p sounds hp htk hlt
        rw [← sproutAt_keys_self t.pairSet st sounds] at hnext
        exact (hO _ _).mem_iff.mpr hnext
      have Wm := walkStep_spec t P hP sounds (walkD t O P fuel) hd hch
        (O (sproutAt t.pairSet st sounds).ctr ((sproutAt t.pairSet st sounds).keys sounds))
        (bumpCtr (sproutAt t.pairSet st sounds)) stop
        (SINV_sproutAt t st sounds hS) (INVg_sproutAt t st sounds hI) hpend hreach
      refine ⟨Wm.mono, Wm.sinv, Wm.invg, Wm.nodup, Wm.emits, Wm.flips, Wm.compl,
        Wm.intr_ne, ?_, Wm.single⟩
      intro q hq
      have hq2 : q ≠ sounds := by
        intro h
        apply hq
        rw [h, List.take_length]
      obtain ⟨wk, ws⟩ := Wm.frame q hq
      rw [wk, ws]
      constructor
      · exact sproutAt_keys_ne t.pairSet st sounds q hq2
      · exact sproutAt_sprouted_ne t.pairSet st sounds q hq2

theorem chainOK_nil (t : Traits) : ChainOK t [] := by
  constructor
  · exact List.chain'_nil
  · intro k hk1 hk2
    simp only [List.length_nil] at hk2
    omega

theorem SINV_init (t : Traits) : SINV t initState := by
  intro q s hq _
  have h : false = true := hq
  cases h

theorem INVg_init (t : Traits) : INVg t initState := by
  intro p _ _ j _ hspr
  have h : false = true := hspr
  cases h

theorem tripRun_out (t : Traits) (O : Nat → List Sound → List Sound)
    (P : Nat → Nat → List Nat) (hO : OracleOK O) (hP : PermOK P) (st : EState)
    (hS : SINV t st) (hI : INVg t st) : WalkOut t st [] true (tripRun t O P st) :=
  walkD_spec t O P hO hP (lenCap t + 2) [] st true (chainOK_nil t) hS hI
    (by simp only [List.length_nil]; omega)

theorem drainRun_out (t : Traits) (O : Nat → List Sound → List Sound)
    (P : Nat → Nat → List Nat) (hO : OracleOK O) (hP : PermOK P) (st : EState)
    (hS : SINV t st) (hI : INVg t st) : WalkOut t st [] false (drainRun t O P st) :=
  walkD_spec t O P hO hP (lenCap t + 2) [] st false (chainOK_nil t) hS hI
    (by simp only [List.length_nil]; omega)

theorem tripState_inv (t : Traits) (O : Nat → List Sound → List Sound)
    (P : Nat → Nat → List Nat) (hO : OracleOK O) (hP : PermOK P) (n : Nat) :
    SINV t (tripState t O P n) ∧ INVg t (tripState t O P n) := by
  induction n with
  | zero => exact ⟨SINV_init t, INVg_init t⟩
  | succ n ih =>
    have W := tripRun_out t O P hO hP (tripState t O P n) ih.1 ih.2
    exact ⟨W.sinv, W.invg⟩

theorem tripState_mono (t : Traits) (O : Nat → List Sound → List Sound)
    (P : Nat → Nat → List Nat) (hO : OracleOK O) (hP : PermOK P) (n : Nat) (p : Path)
    (h : (tripState t O P n).visited p = true) :
    (tripState t O P (n + 1)).visited p = true :=
  (tripRun_out t O P hO hP (tripState t O P n) (tripState_inv t O P hO hP n).1
    (tripState_inv t O P hO hP n).2).mono p h

theorem tripState_mono_le (t : Traits) (O : Nat → List Sound → List Sound)
    (P : Nat → Nat → List Nat) (hO : OracleOK O) (hP : PermOK P) (m : Nat) :
    ∀ n, m ≤ n → ∀ p, (tripState t O P m).visited p = true →
      (tripState t O P n).visited p = true := by
  intro n
  induction n with
  | zero =>
    intro hmn p h
    have hm0 : m = 0 := by omega
    rw [← hm0]
    exact h
  | succ n ih =>
    intro hmn p h
    rcases Nat.lt_or_ge m (n + 1) with hlt | hge
    · exact tripState_mono t O P hO hP n p (ih (by omega) p h)
    · have hm0 : m = n + 1 := by omega
      rw [← hm0]
      exact h

/-- The enumerator is exhausted: every complete word of the set is already
visited. -/
def RemEmpty (t : Traits) (st : EState) : Prop :=
  ∀ p, InSet t p → st.visited p = true

theorem pull_empty_iff (t : Traits) (O : Nat → List Sound → List Sound)
    (P : Nat → Nat → List Nat) (hO : OracleOK O) (hP : PermOK P) (st : EState)
    (hS : SINV t st) (hI : INVg t st) :
    (tripRun t O P st).2.1 = [] ↔ RemEmpty t st := by
  have W := tripRun_out t O P hO hP st hS hI
  constructor
  · intro he p hp
    cases hv : st.visited p with
    | true => rfl
    | false =>
      exfalso
      cases hi : (tripRun t O P st).2.2 with
      | true => exact W.intr_ne hi he
      | false =>
        have hlt : ([] : Path).length < p.length := by
          have h2 := hp.1
          simp only [List.length_nil]
          omega
        have hvis := W.compl hi p hp hv rfl hlt
        have hmem := W.flips p hv hvis hp
        rw [he] at hmem
        cases hmem
  · intro hre
    cases he : (tripRun t O P st).2.1 with
    | nil => rfl
    | cons w rest =>
      exfalso
      have hw := W.emits w (by rw [he]; exact List.mem_cons_self _ _)
      have hv := hre w hw.2.2
      rw [hw.1] at hv
      cases hv

/-- The remaining words: members of the pure walker's output not yet visited. -/
def remF (t : Traits) (st : EState) : Finset Path :=
  (Twalk t).toFinset.filter (fun p => st.visited p = false)

theorem remF_subset_succ (t : Traits) (O : Nat → List Sound → List Sound)
    (P : Nat → Nat → List Nat) (hO : OracleOK O) (hP : PermOK P) (n : Nat) :
    remF t (tripState t O P (n + 1)) ⊆ remF t (tripState t O P n) := by
  intro p hp
  rcases Finset.mem_filter.mp hp with ⟨hpt, hpv⟩
  refine Finset.mem_filter.mpr ⟨hpt, ?_⟩
  exact vis_false_of_mono (tripState_mono t O P hO hP n) p hpv

theorem pull_nonempty_card (t : Traits) (O : Nat → List Sound → List Sound)
    (P : Nat → Nat → List Nat) (hO : OracleOK O) (hP : PermOK P) (n : Nat)
    (hne : tripEmits t O P n ≠ []) :
    (remF t (tripState t O P (n + 1))).card < (remF t (tripState t O P n)).card := by
  have W := tripRun_out t O P hO hP (tripState t O P n) (tripState_inv t O P hO hP n).1
    (tripState_inv t O P hO hP n).2
  cases he : tripEmits t O P n with
  | nil => exact absurd he hne
  | cons w rest =>
    have hwmem : w ∈ (tripRun t O P (tripState t O P n)).2.1 := by
      have he' : (tripRun t O P (tripState t O P n)).2.1 = w :: rest := he
      rw [he']
      exact List.mem_cons_self _ _
    have hw := W.emits w hwmem
    have hwin : w ∈ remF t (tripState t O P n) :=
      Finset.mem_filter.mpr ⟨List.mem_toFinset.mpr ((Twalk_mem t w).mpr hw.2.2), hw.1⟩
    have hwout : w ∉ remF t (tripState t O P (n + 1)) := by
      intro hc
      rcases Finset.mem_filter.mp hc with ⟨-, hv⟩
      have hv' : (tripRun t O P (tripState t O P n)).1.visited w = false := hv
      rw [hw.2.1] at hv'
      cases hv'
    apply Finset.card_lt_card
    rw [Finset.ssubset_iff_of_subset (remF_subset_succ t O P hO hP n)]
    exact ⟨w, hwin, hwout⟩

theorem card_bound (t : Traits) (O : Nat → List Sound → List Sound)
    (P : Nat → Nat → List Nat) (hO : OracleOK O) (hP : PermOK P) (n : Nat)
    (h : ¬ RemEmpty t (tripState t O P n)) :
    (remF t (tripState t O P n)).card + n ≤ (remF t initState).card := by
  induction n with
  | zero =>
    have h0 : tripState t O P 0 = initState := rfl
    rw [h0]
    omega
  | succ n ih =>
    have hn : ¬ RemEmpty t (tripState t O P n) := by
      intro hre
      apply h
      intro p hp
      exact tripState_mono t O P hO hP n p (hre p hp)
    have hne : tripEmits t O P n ≠ [] := by
      intro he
      exact hn ((pull_empty_iff t O P hO hP (tripState t O P n)
        (tripState_inv t O P hO hP n).1 (tripState_inv t O P hO hP n).2).mp he)
    have hlt := pull_nonempty_card t O P hO hP n hne
    have ih2 := ih hn
    omega

theorem exhausted_at (t : Traits) (O : Nat → List Sound → List Sound)
    (P : Nat → Nat → List Nat) (hO : OracleOK O) (hP : PermOK P) :
    RemEmpty t (tripState t O P (Twalk t).length) := by
  by_contra h
  have hb := card_bound t O P hO hP (Twalk t).length h
  have h1 : (remF t initState).card ≤ (Twalk t).length :=
    le_trans (Finset.card_filter_le _ _) (List.toFinset_card_le _)
  have hc0 : (remF t (tripState t O P (Twalk t).length)).card = 0 := by omega
  rw [Finset.card_eq_zero] at hc0
  apply h
  intro p hp
  cases hv : (tripState t O P (Twalk t).length).visited p with
  | true => rfl
  | false =>
    exfalso
    have hmem : p ∈ remF t (tripState t O P (Twalk t).length) :=
      Finset.mem_filter.mpr ⟨List.mem_toFinset.mpr ((Twalk_mem t p).mpr hp), hv⟩
    rw [hc0] at hmem
    exact Finset.not_mem_empty p hmem

theorem remEmpty_le (t : Traits) (O : Nat → List Sound → List Sound)
    (P : Nat → Nat → List Nat) (hO : OracleOK O) (hP : PermOK P) (m n : Nat) (hmn : m ≤ n)
    (h : RemEmpty t (tripState t O P m)) : RemEmpty t (tripState t O P n) := by
  intro p hp
  exact tripState_mono_le t O P hO hP m n hmn p (h p hp)

theorem flip_exists (t : Traits) (O : Nat → List Sound → List Sound)
    (P : Nat → Nat → List Nat) (p : Path) (m : Nat)
    (hm : (tripState t O P m).visited p = true)
    (h0 : (tripState t O P 0).visited p = false) :
    ∃ n, n < m ∧ (tripState t O P n).visited p = false ∧
      (tripState t O P (n + 1)).visited p = true := by
  induction m with
  | zero =>
    rw [h0] at hm
    cases hm
  | succ m ih =>
    cases hmv : (tripState t O P m).visited p with
    | true =>
      rcases ih hmv with ⟨n, hn, ha, hb⟩
      exact ⟨n, by omega, ha, hb⟩
    | false => exact ⟨m, by omega, hmv, hm⟩

theorem tripEmits_sound (t : Traits) (O : Nat → List Sound → List Sound)
    (P : Nat → Nat → List Nat) (hO : OracleOK O) (hP : PermOK P) (n : Nat) (p : Path)
    (h : p ∈ tripEmits t O P n) : InSet t p :=
  ((tripRun_out t O P hO hP (tripState t O P n) (tripState_inv t O P hO hP n).1
    (tripState_inv t O P hO hP n).2).emits p h).2.2

theorem tripEmits_complete (t : Traits) (O : Nat → List Sound → List Sound)
    (P : Nat → Nat → List Nat) (hO : OracleOK O) (hP : PermOK P) (p : Path)
    (hp : InSet t p) : ∃ n, n < (Twalk t).length ∧ p ∈ tripEmits t O P n := by
  have hvisL := exhausted_at t O P hO hP p hp
  have h0 : (tripState t O P 0).visited p = false := rfl
  rcases flip_exists t O P p (Twalk t).length hvisL h0 with ⟨n, hn, ha, hb⟩
  have W := tripRun_out t O P hO hP (tripState t O P n) (tripState_inv t O P hO hP n).1
    (tripState_inv t O P hO hP n).2
  exact ⟨n, hn, W.flips p ha hb hp⟩

theorem runOps_nil (t : Traits) (O : Nat → List Sound → List Sound)
    (P : Nat → Nat → List Nat) (st : EState) : runOps t O P st [] = (st, []) := rfl

theorem runOps_cons (t : Traits) (O : Nat → List Sound → List Sound)
    (P : Nat → Nat → List Nat) (st : EState) (stop : Bool) (ops : List Bool) :
    runOps t O P st (stop :: ops) =
      ((runOps t O P (walkD t O P (lenCap t + 2) st [] stop).1 ops).1,
        (walkD t O P (lenCap t + 2) st [] stop).2.1 ++
          (runOps t O P (walkD t O P (lenCap t + 2) st [] stop).1 ops).2) := rfl

theorem runOps_out (t : Traits) (O : Nat → List Sound → List Sound)
    (P : Nat → Nat → List Nat) (hO : OracleOK O) (hP : PermOK P) :
    ∀ (ops : List Bool) (st : EState), SINV t st → INVg t st →
      (runOps t O P st ops).2.Nodup ∧
      (∀ p ∈ (runOps t O P st ops).2,
        st.visited p = false ∧ (runOps t O P st ops).1.visited p = true ∧ InSet t p) ∧
      (∀ p, st.visited p = true → (runOps t O P st ops).1.visited p = true) := by
  intro ops
  induction ops with
  | nil =>
    intro st hS hI
    refine ⟨List.nodup_nil, ?_, fun p h => h⟩
    intro p hp
    cases hp
  | cons stop ops ih =>
    intro st hS hI
    have W := walkD_spec t O P hO hP (lenCap t + 2) [] st stop (chainOK_nil t) hS hI
      (by simp only [List.length_nil]; omega)
    rcases hr : walkD t O P (lenCap t + 2) st [] stop with ⟨st1, em1, i1⟩
    rw [hr] at W
    have R := ih st1 W.sinv W.invg
    rcases hr2 : runOps t O P st1 ops with ⟨st2, em2⟩
    rw [hr2] at R
    have he : runOps t O P st (stop :: ops) = (st2, em1 ++ em2) := by
      rw [runOps_cons, hr]
      dsimp only
      rw [hr2]
    rw [he]
    refine ⟨?_, ?_, ?_⟩
    · refine W.nodup.append R.1 ?_
      exact disjoint_of_vis st1 em1 em2
        (fun p hp => (W.emits p hp).2.1) (fun p hp => (R.2.1 p hp).1)
    · intro p hp
      rcases List.mem_append.mp hp with hp1 | hp2
      · obtain ⟨ha, hb, hc⟩ := W.emits p hp1
        exact ⟨ha, R.2.2 p hb, hc⟩
      · obtain ⟨ha, hb, hc⟩ := R.2.1 p hp2
        exact ⟨vis_false_of_mono W.mono p ha, hb, hc⟩
    · intro p h
      exact R.2.2 p (W.mono p h)

/-- A degenerate but admissible outcome of the random shuffle: the draw
returns its input unchanged (`rand.Perm` can yield the identity). -/
def idShuffle : Nat → List Sound → List Sound := fun _ l => l

/-- The identity outcome of `permutate`. -/
def idPermutate : Nat → Nat → List Nat := fun _ k => List.range k

theorem idShuffle_ok : OracleOK idShuffle := fun _ l => List.Perm.refl l

theorem idPermutate_ok : PermOK idPermutate := fun _ k => List.Perm.refl (List.range k)

/-- A traits envelope whose only word is "go". -/
def traitsGO : Traits :=
  { minNSounds := 2, maxNSounds := 2, maxNVowels := 1, maxConseqVow := 1,
    maxConseqCons := 1, soundSet := [['g'], ['o']], pairSet := [(['g'], ['o'])],
    vowels := [['o']] }

/-- A traits envelope in which the glyph paths a·ba and ab·a join to the same
string "aba": two distinct tree paths with equal rendered words. -/
def traitsAB : Traits :=
  { minNSounds := 2, maxNSounds := 2, maxNVowels := 5, maxConseqVow := 5,
    maxConseqCons := 5, pairSet := [(['a'], ['b', 'a']), (['a', 'b'], ['a'])],
    vowels := [['a']] }

/-- Claim C1: pulling single words from an enumerator until an empty result:
each pull yields at most one word; once a pull comes back empty every later
pull is empty; after at most as many pulls as the pure walker has words the
stream is exhausted; and the words collected across all pulls are exactly the
set of words of the pure exhaustive walker on the same traits. Stated for
every admissible outcome of the random shuffles. -/
theorem claim_C1 (t : Traits) (O : Nat → List Sound → List Sound)
    (P : Nat → Nat → List Nat) (hO : OracleOK O) (hP : PermOK P) :
    (∀ n, tripEmits t O P n = [] ∨ ∃ w, tripEmits t O P n = [w]) ∧
    (∀ n, tripEmits t O P n = [] → tripEmits t O P (n + 1) = []) ∧
    (∀ n, (Twalk t).length ≤ n → tripEmits t O P n = []) ∧
    (∀ w, (∃ n, w ∈ (tripEmits t O P n).map List.flatten) ↔ w ∈ Twords t) := by
  refine ⟨?_, ?_, ?_, ?_⟩
  · intro n
    have W := tripRun_out t O P hO hP (tripState t O P n) (tripState_inv t O P hO hP n).1
      (tripState_inv t O P hO hP n).2
    rcases W.single rfl with ⟨-, he⟩ | ⟨w, -, he⟩
    · left
      exact he
    · right
      exact ⟨w, he⟩
  · intro n he
    apply (pull_empty_iff t O P hO hP (tripState t O P (n + 1))
      (tripState_inv t O P hO hP (n + 1)).1 (tripState_inv t O P hO hP (n + 1)).2).mpr
    apply remEmpty_le t O P hO hP n (n + 1) (by omega)
    exact (pull_empty_iff t O P hO hP (tripState t O P n)
      (tripState_inv t O P hO hP n).1 (tripState_inv t O P hO hP n).2).mp he
  · intro n hn
    apply (pull_empty_iff t O P hO hP (tripState t O P n)
      (tripState_inv t O P hO hP n).1 (tripState_inv t O P hO hP n).2).mpr
    exact remEmpty_le t O P hO hP (Twalk t).length n hn (exhausted_at t O P hO hP)
  · intro w
    constructor
    · rintro ⟨n, hw⟩
      rcases List.mem_map.mp hw with ⟨p, hp, rfl⟩
      show p.flatten ∈ (Twalk t).map List.flatten
      exact List.mem_map.mpr
        ⟨p, (Twalk_mem t p).mpr (tripEmits_sound t O P hO hP n p hp), rfl⟩
    · intro hw
      have hw2 : w ∈ (Twalk t).map List.flatten := hw
      rcases List.mem_map.mp hw2 with ⟨p, hp, rfl⟩
      rcases tripEmits_complete t O P hO hP p ((Twalk_mem t p).mp hp) with ⟨n, -, hmem⟩
      exact ⟨n, List.mem_map.mpr ⟨p, hmem, rfl⟩⟩

theorem claim_C1_witness :
    tripEmits traitsGO idShuffle idPermutate (Twalk traitsGO).length = [] :=
  (claim_C1 traitsGO idShuffle idPermutate idShuffle_ok idPermutate_ok).2.2.1
    (Twalk traitsGO).length le_rfl

/-- Claim C2 (amended): across the full lifetime of one enumerator — any
interleaving of single pulls and full drains on the same state — no glyph
path is ever emitted twice. (At the level of rendered strings the original
claim fails: two distinct glyph paths may join to the same word, see the
counterexample.) -/
theorem claim_C2 (t : Traits) (O : Nat → List Sound → List Sound)
    (P : Nat → Nat → List Nat) (hO : OracleOK O) (hP : PermOK P) (ops : List Bool) :
    (runOps t O P initState ops).2.Nodup :=
  (runOps_out t O P hO hP ops initState (SINV_init t) (INVg_init t)).1

theorem claim_C2_witness :
    (runOps traitsGO idShuffle idPermutate initState [true, false]).2.Nodup :=
  claim_C2 traitsGO idShuffle idPermutate idShuffle_ok idPermutate_ok [true, false]

/-- Claim C2 (refuting evaluation of the original wording): one full drain of
a fresh enumerator over `traitsAB` emits the word "aba" twice — once along
the glyph path a·ba and once along ab·a — so at the level of rendered strings
an output word does repeat within one enumerator lifetime. -/
theorem claim_C2_counterexample :
    ¬ (((runOps traitsAB idShuffle idPermutate initState [false]).2).map
      List.flatten).Nodup := by
  intro h
  have he : ((runOps traitsAB idShuffle idPermutate initState [false]).2).map
      List.flatten = [['a', 'b', 'a'], ['a', 'b', 'a']] := rfl
  rw [he] at h
  simp at h

end Codex
